import Mathlib

/-!
Verification of the `martingale-cs` confidence-sequence library.

The C library computes conservative Darling–Robbins confidence-sequence
thresholds using directed rounding over IEEE-754 binary64 ("double")
arithmetic.  We give a shallow embedding:

* a `double` is represented by its 64-bit pattern, a natural number `< 2^64`;
* `decode` interprets a pattern as NaN, a signed infinity, a signed zero, or
  a finite value `(-1)^s * m * 2^e` with `m : ℕ`, `e : ℤ`;
* `roundFin` implements IEEE round-to-nearest, ties-to-even, producing a
  pattern from a sign and an exact positive value `m * 2^e` (with an optional
  sticky bit for inexact quotients / square roots, folded in by appending the
  bits `01` below the value, which never changes the rounding because at
  least two extra bits below the rounding position are always available at
  the call sites);
* `addD`, `subD`, `mulD`, `divD`, `sqrtD`, `u64ToD` and the comparisons
  `dlt`/`dle`/`dgt`/`dge` mirror the C arithmetic exactly (sqrt is correctly
  rounded, as the C code assumes);
* the platform's `log` and `log2` are parameters (a `Libm` structure): the C
  code only assumes they are within 4 representable steps of the truth and
  compensates with `next_k`/`prev_k` nudges.

The functions `float_bits`, `bits_float`, `next_k`, `prev_k`, `log_up`,
`log2_down`, `sqrt_up`, `log_a_up`, `martingale_cs_threshold`,
`martingale_cs_threshold_span`, `martingale_cs_threshold_range`,
`martingale_cs_quantile_slop`, `martingale_cs_quantile_slop_hi` and
`martingale_cs_quantile_slop_lo` are translated line by line from
`martingale-cs.c`.
-/

set_option maxHeartbeats 2000000
set_option maxRecDepth 4000

namespace MartingaleCS

/-! ## Bit-level layer -/

/-- The pattern of `+infinity` (`HUGE_VAL`): exponent field 2047, mantissa 0. -/
def pinf : ℕ := 2047 * 2 ^ 52

/-- The canonical quiet-NaN pattern produced by IEEE operations. -/
def pnan : ℕ := 2047 * 2 ^ 52 + 2 ^ 51

/-- Signed zero pattern. -/
def pzero (s : Bool) : ℕ := if s then 2 ^ 63 else 0

/-- Signed infinity pattern. -/
def pinfS (s : Bool) : ℕ := if s then 2 ^ 63 + pinf else pinf

/-- Source `float_bits`: map a double's bit pattern to its total-order key.
The sign mask is all-ones exactly when the sign bit is set, and the C code
xors with `mask >> 1`, i.e. with the low 63 bits set. -/
def float_bits (p : ℕ) : ℕ :=
  if p < 2 ^ 63 then p else p ^^^ (2 ^ 63 - 1)

/-- Source `bits_float`: inverse transform (same xor, keyed on the key's
sign bit). -/
def bits_float (k : ℕ) : ℕ :=
  if k < 2 ^ 63 then k else k ^^^ (2 ^ 63 - 1)

/-- Source `next_k`: move `delta` representable steps up (uint64 wrap-around,
as in C). -/
def next_k (x delta : ℕ) : ℕ :=
  bits_float ((float_bits x + delta) % 2 ^ 64)

/-- Source `next`. -/
def next (x : ℕ) : ℕ := next_k x 1

/-- Source `prev_k`: move `delta` representable steps down (uint64 wrap). -/
def prev_k (x delta : ℕ) : ℕ :=
  bits_float ((float_bits x + (2 ^ 64 - delta % 2 ^ 64)) % 2 ^ 64)

/-- Source `prev`. -/
def prev (x : ℕ) : ℕ := prev_k x 1

/-! ## Decoding patterns -/

/-- Interpretation of a bit pattern: NaN, signed infinity, signed zero, or a
finite nonzero value `(-1)^s * m * 2^e`. -/
inductive Dec where
  | nan : Dec
  | inf : Bool → Dec
  | zero : Bool → Dec
  | fin : Bool → ℕ → ℤ → Dec
  deriving DecidableEq

/-- Decode a 64-bit pattern.  Subnormals have value `M * 2^(-1074)`, normals
`(2^52 + M) * 2^(E - 1075)`. -/
def decode (p : ℕ) : Dec :=
  let s : Bool := decide (2 ^ 63 ≤ p)
  let a : ℕ := p % 2 ^ 63
  if a = 0 then .zero s
  else if a < 2 ^ 52 then .fin s a (-1074)
  else if a < 2047 * 2 ^ 52 then .fin s (2 ^ 52 + a % 2 ^ 52) (((a / 2 ^ 52 : ℕ) : ℤ) - 1075)
  else if a = 2047 * 2 ^ 52 then .inf s
  else .nan

/-! ## Round to nearest, ties to even -/

/-- Fuel-driven floor of `log2` (structural recursion, kernel-friendly). -/
def nlog2F : ℕ → ℕ → ℕ
  | 0, _ => 0
  | fuel + 1, m => if m ≤ 1 then 0 else nlog2F fuel (m / 2) + 1

/-- Floor of `log2 m` for every `m < 2^6000` (all values arising here). -/
def nlog2 (m : ℕ) : ℕ := nlog2F 6000 m

/-- Round `m / 2^k` to the nearest integer, ties to even. -/
def shiftRNE (m k : ℕ) : ℕ :=
  if 2 ^ k < 2 * (m % 2 ^ k) ∨ (2 * (m % 2 ^ k) = 2 ^ k ∧ (m / 2 ^ k) % 2 = 1)
  then m / 2 ^ k + 1 else m / 2 ^ k

/-- Assemble a pattern from sign, biased exponent field and mantissa field. -/
def pack (s : Bool) (biasedE M : ℕ) : ℕ :=
  (if s then 2 ^ 63 else 0) + biasedE * 2 ^ 52 + M

/-- Mantissa of a value in the subnormal range, rounded to a multiple of
`2^(-1074)` (scaled exactly up when `e ≥ -1074`). -/
def subQ (m : ℕ) (e : ℤ) : ℕ :=
  if -1074 ≤ e then m * 2 ^ (e + 1074).toNat else shiftRNE m (-1074 - e).toNat

/-- Mantissa of a normal-range value rounded to 53 bits (scaled exactly up
when `m` has fewer than 53 bits). -/
def normQ (m L : ℕ) : ℕ :=
  if L < 52 then m * 2 ^ (52 - L) else shiftRNE m (L - 52)

/-- Round the exact value `(-1)^s * m * 2^e` to the nearest binary64,
ties to even, with overflow to infinity and underflow through subnormals.
A carry out of the 53-bit mantissa (`normQ = 2^53`) bumps the exponent. -/
def roundFin (s : Bool) (m : ℕ) (e : ℤ) : ℕ :=
  if m = 0 then pzero s
  else if ((nlog2 m : ℕ) : ℤ) + e < -1022 then
    (if subQ m e = 0 then pzero s
     else if subQ m e < 2 ^ 52 then pack s 0 (subQ m e)
     else pack s 1 0)
  else if normQ m (nlog2 m) = 2 ^ 53 then
    (if 1024 ≤ ((nlog2 m : ℕ) : ℤ) + e + 1 then pinfS s
     else pack s ((((nlog2 m : ℕ) : ℤ) + e + 1) + 1023).toNat 0)
  else if 1024 ≤ ((nlog2 m : ℕ) : ℤ) + e then pinfS s
  else pack s ((((nlog2 m : ℕ) : ℤ) + e) + 1023).toNat (normQ m (nlog2 m) - 2 ^ 52)

/-- Fold an inexact sticky bit into an exact value: append bits `01` below
the lowest bit.  The true value lies strictly between `m * 2^e` and
`(m + 1) * 2^e`; every call site keeps at least two bits below the rounding
position, so any value strictly inside that gap rounds identically. -/
def roundSticky (s : Bool) (m : ℕ) (e : ℤ) (sticky : Bool) : ℕ :=
  if sticky then roundFin s (4 * m + 1) (e - 2) else roundFin s m e

/-! ## Arithmetic operations -/

/-- Sign-bit flip (C unary minus on a double). -/
def negD (p : ℕ) : ℕ := if p < 2 ^ 63 then p + 2 ^ 63 else p - 2 ^ 63

/-- IEEE binary64 addition, round to nearest, ties to even. -/
def addD (x y : ℕ) : ℕ :=
  match decode x, decode y with
  | .nan, _ => pnan
  | _, .nan => pnan
  | .inf s1, .inf s2 => if s1 = s2 then pinfS s1 else pnan
  | .inf s1, _ => pinfS s1
  | _, .inf s2 => pinfS s2
  | .zero s1, .zero s2 => if s1 && s2 then pzero true else pzero false
  | .zero _, _ => y
  | _, .zero _ => x
  | .fin s1 m1 e1, .fin s2 m2 e2 =>
    let e := min e1 e2
    let M1 := m1 * 2 ^ (e1 - e).toNat
    let M2 := m2 * 2 ^ (e2 - e).toNat
    if s1 = s2 then roundFin s1 (M1 + M2) e
    else if M1 = M2 then pzero false
    else if M2 < M1 then roundFin s1 (M1 - M2) e
    else roundFin s2 (M2 - M1) e

/-- IEEE binary64 subtraction. -/
def subD (x y : ℕ) : ℕ := addD x (negD y)

/-- IEEE binary64 multiplication. -/
def mulD (x y : ℕ) : ℕ :=
  match decode x, decode y with
  | .nan, _ => pnan
  | _, .nan => pnan
  | .inf s1, .inf s2 => pinfS (xor s1 s2)
  | .inf _, .zero _ => pnan
  | .zero _, .inf _ => pnan
  | .inf s1, .fin s2 _ _ => pinfS (xor s1 s2)
  | .fin s1 _ _, .inf s2 => pinfS (xor s1 s2)
  | .zero s1, .zero s2 => pzero (xor s1 s2)
  | .zero s1, .fin s2 _ _ => pzero (xor s1 s2)
  | .fin s1 _ _, .zero s2 => pzero (xor s1 s2)
  | .fin s1 m1 e1, .fin s2 m2 e2 => roundFin (xor s1 s2) (m1 * m2) (e1 + e2)

/-- IEEE binary64 division (inexact quotients use a 60-bit-wide exact
quotient plus a sticky remainder bit). -/
def divD (x y : ℕ) : ℕ :=
  match decode x, decode y with
  | .nan, _ => pnan
  | _, .nan => pnan
  | .inf _, .inf _ => pnan
  | .inf s1, .zero s2 => pinfS (xor s1 s2)
  | .inf s1, .fin s2 _ _ => pinfS (xor s1 s2)
  | .zero _, .zero _ => pnan
  | .zero s1, .inf s2 => pzero (xor s1 s2)
  | .zero s1, .fin s2 _ _ => pzero (xor s1 s2)
  | .fin s1 _ _, .inf s2 => pzero (xor s1 s2)
  | .fin s1 _ _, .zero s2 => pinfS (xor s1 s2)
  | .fin s1 m1 e1, .fin s2 m2 e2 =>
    let t := nlog2 m2 + 60 - nlog2 m1
    let N := m1 * 2 ^ t
    roundSticky (xor s1 s2) (N / m2) (e1 - e2 - t) (decide (N % m2 ≠ 0))

/-- Fuel-driven integer square root by binary digit descent. -/
def nsqrtAux : ℕ → ℕ → ℕ → ℕ
  | 0, _, r => r
  | i + 1, n, r => if (r + 2 ^ i) * (r + 2 ^ i) ≤ n then nsqrtAux i n (r + 2 ^ i) else nsqrtAux i n r

/-- Floor of the integer square root for `n < 2^140`. -/
def nsqrt (n : ℕ) : ℕ := nsqrtAux 70 n 0

/-- Square root of the positive value `m * 2^e` with `e` even: scale the
mantissa to at least 113 bits (an even power of two), take the integer
square root, and round with a sticky bit for inexactness. -/
def sqrtCore (m : ℕ) (e : ℤ) : ℕ :=
  roundSticky false (nsqrt (m * 2 ^ (2 * ((120 - nlog2 m) / 2 + 2))))
    (e / 2 - ((120 - nlog2 m) / 2 + 2))
    (decide (nsqrt (m * 2 ^ (2 * ((120 - nlog2 m) / 2 + 2))) *
      nsqrt (m * 2 ^ (2 * ((120 - nlog2 m) / 2 + 2))) ≠ m * 2 ^ (2 * ((120 - nlog2 m) / 2 + 2))))

/-- Square root of the positive value `m * 2^e`, normalizing the exponent
to be even first. -/
def sqrtPos (m : ℕ) (e : ℤ) : ℕ :=
  if e % 2 = 0 then sqrtCore m e else sqrtCore (2 * m) (e - 1)

/-- IEEE binary64 square root, correctly rounded (the C code relies on the
platform `sqrt` being correctly rounded). -/
def sqrtD (x : ℕ) : ℕ :=
  match decode x with
  | .nan => pnan
  | .inf s => if s then pnan else pinf
  | .zero s => pzero s
  | .fin s m e => if s then pnan else sqrtPos m e

/-- Conversion of a `uint64_t` to double (round to nearest, ties to even). -/
def u64ToD (n : ℕ) : ℕ := roundFin false n 0

/-! ## Comparisons -/

/-- Compare two positive finite values `m1 * 2^e1 < m2 * 2^e2` exactly. -/
def finLtB (m1 : ℕ) (e1 : ℤ) (m2 : ℕ) (e2 : ℤ) : Bool :=
  let e := min e1 e2
  decide (m1 * 2 ^ (e1 - e).toNat < m2 * 2 ^ (e2 - e).toNat)

/-- IEEE `<` on doubles (false when either operand is NaN; `-0 < +0` is
false). -/
def dlt (x y : ℕ) : Bool :=
  match decode x, decode y with
  | .nan, _ => false
  | _, .nan => false
  | .inf s1, .inf s2 => s1 && !s2
  | .inf s1, _ => s1
  | _, .inf s2 => !s2
  | .zero _, .zero _ => false
  | .zero _, .fin s2 _ _ => !s2
  | .fin s1 _ _, .zero _ => s1
  | .fin s1 m1 e1, .fin s2 m2 e2 =>
    if s1 = s2 then (if s1 then finLtB m2 e2 m1 e1 else finLtB m1 e1 m2 e2) else s1

/-- NaN test on a pattern. -/
def isNaNB (p : ℕ) : Bool := decide (2047 * 2 ^ 52 < p % 2 ^ 63)

/-- IEEE `<=` on doubles. -/
def dle (x y : ℕ) : Bool := !isNaNB x && !isNaNB y && !dlt y x

/-- IEEE `>` on doubles. -/
def dgt (x y : ℕ) : Bool := dlt y x

/-- IEEE `>=` on doubles. -/
def dge (x y : ℕ) : Bool := dle y x

/-! ## The martingale-cs library -/

/-- Modelled from the spec: the platform libm's `log` and `log2` are not part
of the repository; the spec only assumes each is "correct to within a fixed
small number of representable-steps (error bound = 4 steps)".  We make them
parameters: every functional statement below holds for an arbitrary `Libm`,
and concrete evaluations use `defaultLibm`, a finite table of correctly
rounded values. -/
structure Libm where
  log : ℕ → ℕ
  log2 : ℕ → ℕ

/-- Source `libm_error_limit`: libm assumed off by less than 4 ulps. -/
def libm_error_limit : ℕ := 4

/-- Source `log_up`. -/
def log_up (lm : Libm) (x : ℕ) : ℕ := next_k (lm.log x) libm_error_limit

/-- Source `log2_down`. -/
def log2_down (lm : Libm) (x : ℕ) : ℕ := prev_k (lm.log2 x) libm_error_limit

/-- Source `sqrt_up` (platform sqrt is correctly rounded). -/
def sqrt_up (x : ℕ) : ℕ := next (sqrtD x)

/-- Pattern of the double literal `0.5`. -/
def dhalf : ℕ := 0x3FE0000000000000

/-- Pattern of the double literal `0.25`. -/
def dquarter : ℕ := 0x3FD0000000000000

/-- Pattern of the double literal `1.0`. -/
def done : ℕ := 0x3FF0000000000000

/-- Pattern of the double literal `2.0` (the constant `c` of the source). -/
def dtwo : ℕ := 0x4000000000000000

/-- Pattern of the double literal `3.0`. -/
def dthree : ℕ := 0x4008000000000000

/-- Pattern of the double literal `0.0`. -/
def dzero : ℕ := 0

/-- Source constant `martingale_cs_le = 0`. -/
def martingale_cs_le : ℕ := 0

/-- Source constant `martingale_cs_eq = -0.6931471805599454` (its bit
pattern, checked against `-4618953502541334032ULL` in the source). -/
def martingale_cs_eq : ℕ := 0xBFE62E42FEFA39F0

/-- Source constant `minus_half_log_log_2_up = 0.1832564602908322` (bit
pattern `4595770530100767648` per the source's self-check). -/
def minus_half_log_log_2_up : ℕ := 0x3FC774F29BDD6BA0

/-- Source `log_a_up`: `log_up(next(1.0 / prev(log2_down(min_count) - 0.5)))
- log_eps`; `min_count` is converted to double. -/
def log_a_up (lm : Libm) (min_count : ℕ) (log_eps : ℕ) : ℕ :=
  let inv_q_m := prev (subD (log2_down lm (u64ToD min_count)) dhalf)
  subD (log_up lm (next (divD done inv_q_m))) log_eps

/-- Source `martingale_cs_threshold`.  The clamp `min_count < c` compares
the converted double against `2.0`; `n < min_count` is a `uint64` compare;
`log_eps >= 0` is a double compare. -/
def martingale_cs_threshold (lm : Libm) (n min_count : ℕ) (log_eps : ℕ) : ℕ :=
  let min_count' := if dlt (u64ToD min_count) dtwo then 2 else min_count
  if n < min_count' then pinf
  else if dge log_eps dzero then negD pinf
  else
    let log_a := log_a_up lm min_count' log_eps
    let inner := next (addD (next (addD (mulD dhalf (log_up lm (log_up lm (u64ToD n))))
      minus_half_log_log_2_up)) (mulD dquarter log_a))
    next (mulD dthree (sqrt_up (next (mulD (u64ToD n) inner))))

/-- Source `martingale_cs_threshold_span`: `next((span / 2) * threshold)`. -/
def martingale_cs_threshold_span (lm : Libm) (n min_count : ℕ) (span log_eps : ℕ) : ℕ :=
  next (mulD (divD span dtwo) (martingale_cs_threshold lm n min_count log_eps))

/-- Source `martingale_cs_threshold_range`. -/
def martingale_cs_threshold_range (lm : Libm) (n min_count : ℕ) (lo hi log_eps : ℕ) : ℕ :=
  if dge lo dzero || dle hi dzero then dzero
  else
    let span := next (subD hi lo)
    let rho := prev (divD (negD lo) span)
    let scale := if dle rho dhalf then divD span dtwo
                 else next (mulD (sqrt_up (mulD rho (next (subD done rho)))) span)
    next (mulD scale (martingale_cs_threshold lm n min_count log_eps))

/-- Source `martingale_cs_quantile_slop`: degenerate quantiles return `1`,
otherwise `1 + threshold_span(n, min_count, 1.0, log_eps + eq)`. -/
def martingale_cs_quantile_slop (lm : Libm) (quantile n min_count : ℕ) (log_eps : ℕ) : ℕ :=
  if dle quantile dzero || dge quantile done then done
  else addD done
    (martingale_cs_threshold_span lm n min_count done (addD log_eps martingale_cs_eq))

/-- Source `martingale_cs_quantile_slop_hi`:
`1 + threshold_range(n, min_count, quantile - 1, quantile, log_eps + eq)`. -/
def martingale_cs_quantile_slop_hi (lm : Libm) (quantile n min_count : ℕ) (log_eps : ℕ) : ℕ :=
  if dle quantile dzero then done
  else if dge quantile done then pinf
  else addD done (martingale_cs_threshold_range lm n min_count
    (subD quantile done) quantile (addD log_eps martingale_cs_eq))

/-- Source `martingale_cs_quantile_slop_lo`:
`-1 - threshold_range(n, min_count, -quantile, 1 - quantile, log_eps + eq)`. -/
def martingale_cs_quantile_slop_lo (lm : Libm) (quantile n min_count : ℕ) (log_eps : ℕ) : ℕ :=
  if dle quantile dzero then negD pinf
  else if dge quantile done then negD done
  else subD (negD done) (martingale_cs_threshold_range lm n min_count
    (negD quantile) (subD done quantile) (addD log_eps martingale_cs_eq))

/-- Modelled from the spec: a concrete `Libm` instance used for closed-form
evaluations.  It tabulates the correctly rounded values of `log` and `log2`
at the arguments reached by those evaluations (well within the 4-ulp error
budget the spec grants libm) and returns `+0.0` elsewhere. -/
def defaultLibm : Libm where
  log := fun p =>
    if p = 0x4000000000000006 then 0x3FE62E42FEFA39FB      -- log(2.0000000000000027)
    else if p = 0x408F400000000000 then 0x401BA18A998FFFA0 -- log(1000.0)
    else if p = 0x401BA18A998FFFA4 then 0x3FFEEC1CE26F4C4A -- log(6.90775527898214)
    else if p = 0x43B0000000000000 then 0x4044CB5ECF0A9650 -- log(2^60)
    else if p = 0x4044CB5ECF0A9654 then 0x400DD299654EB7A4 -- log(41.588830833596745)
    else 0
  log2 := fun p =>
    if p = 0x4000000000000000 then 0x3FF0000000000000      -- log2(2.0)
    else 0

/-- Modelled from the spec: the claimed closed form (C1) of the threshold
for `log_eps < 0` and `n` at least the clamped minimum count, transcribed
from the claim text: `log_a = log_up(next(1.0 / prev(log2_down(mc') -
0.5))) - log_eps` and `width = next(3 * sqrt_up(next(n * inner)))` where
`inner = next(next(0.5 * log_up(log_up(n)) + minus_half_log_log_2_up) +
0.25 * log_a)`, every intermediate nudged upward as described. -/
def threshold_formula_spec (lm : Libm) (n mcClamped : ℕ) (log_eps : ℕ) : ℕ :=
  next (mulD dthree (sqrt_up (next (mulD (u64ToD n)
    (next (addD (next (addD (mulD dhalf (log_up lm (log_up lm (u64ToD n))))
      minus_half_log_log_2_up))
      (mulD dquarter
        (subD (log_up lm (next (divD done
          (prev (subD (log2_down lm (u64ToD mcClamped)) dhalf))))) log_eps))))))))

/-! ## Infrastructure: arithmetic form of the total-order key -/

lemma xor_mask_low {a : ℕ} (ha : a < 2 ^ 63) : a ^^^ (2 ^ 63 - 1) = 2 ^ 63 - 1 - a := by
  apply Nat.eq_of_testBit_eq
  intro i
  rw [Nat.testBit_xor, Nat.testBit_two_pow_sub_one]
  rcases lt_or_le i 63 with hi | hi
  · have h2 : 2 ^ 63 - 1 - a = 2 ^ 63 - (a + 1) := by omega
    rw [h2, Nat.testBit_two_pow_sub_succ ha]
    simp [hi]
  · have hpow : (2 : ℕ) ^ 63 ≤ 2 ^ i := Nat.pow_le_pow_right (by norm_num) hi
    have h1 : Nat.testBit a i = false := Nat.testBit_lt_two_pow (by omega)
    have h2 : Nat.testBit (2 ^ 63 - 1 - a) i = false := Nat.testBit_lt_two_pow (by omega)
    have h0 : decide (i < 63) = false := by
      simp only [decide_eq_false_iff_not]
      omega
    rw [h1, h0, h2]
    rfl

lemma xor_mask_high {p : ℕ} (h1 : 2 ^ 63 ≤ p) (h2 : p < 2 ^ 64) :
    p ^^^ (2 ^ 63 - 1) = 2 ^ 64 + 2 ^ 63 - 1 - p := by
  obtain ⟨a, ha, rfl⟩ : ∃ a, a < 2 ^ 63 ∧ p = 2 ^ 63 + a := ⟨p - 2 ^ 63, by omega, by omega⟩
  have hb : 2 ^ 64 + 2 ^ 63 - 1 - (2 ^ 63 + a) = 2 ^ 63 + (2 ^ 63 - 1 - a) := by omega
  rw [hb]
  apply Nat.eq_of_testBit_eq
  intro i
  rw [Nat.testBit_xor, Nat.testBit_two_pow_sub_one]
  rcases lt_trichotomy i 63 with hi | hi | hi
  · rw [Nat.testBit_two_pow_add_gt hi, Nat.testBit_two_pow_add_gt hi]
    have h3 : 2 ^ 63 - 1 - a = 2 ^ 63 - (a + 1) := by omega
    rw [h3, Nat.testBit_two_pow_sub_succ ha]
    simp [hi]
  · subst hi
    have h3 : Nat.testBit a 63 = false := Nat.testBit_lt_two_pow ha
    have h4 : Nat.testBit (2 ^ 63 - 1 - a) 63 = false := Nat.testBit_lt_two_pow (by omega)
    rw [Nat.testBit_two_pow_add_eq, Nat.testBit_two_pow_add_eq, h3, h4]
    simp
  · have hpow : (2 : ℕ) ^ 64 ≤ 2 ^ i := Nat.pow_le_pow_right (by norm_num) hi
    have h3 : Nat.testBit (2 ^ 63 + a) i = false := Nat.testBit_lt_two_pow (by omega)
    have h4 : Nat.testBit (2 ^ 63 + (2 ^ 63 - 1 - a)) i = false :=
      Nat.testBit_lt_two_pow (by omega)
    have h0 : decide (i < 63) = false := by
      simp only [decide_eq_false_iff_not]
      omega
    rw [h3, h0, h4]
    rfl

/-- Arithmetic characterization of `float_bits`. -/
lemma float_bits_eq {p : ℕ} (hp : p < 2 ^ 64) :
    float_bits p = if p < 2 ^ 63 then p else 2 ^ 64 + 2 ^ 63 - 1 - p := by
  unfold float_bits
  split
  · rfl
  · rw [xor_mask_high (by omega) hp]

/-- Arithmetic characterization of `bits_float`. -/
lemma bits_float_eq {k : ℕ} (hk : k < 2 ^ 64) :
    bits_float k = if k < 2 ^ 63 then k else 2 ^ 64 + 2 ^ 63 - 1 - k := by
  unfold bits_float
  split
  · rfl
  · rw [xor_mask_high (by omega) hk]

lemma float_bits_lt {p : ℕ} (hp : p < 2 ^ 64) : float_bits p < 2 ^ 64 := by
  rw [float_bits_eq hp]; split <;> omega

lemma bits_float_lt {k : ℕ} (hk : k < 2 ^ 64) : bits_float k < 2 ^ 64 := by
  rw [bits_float_eq hk]; split <;> omega

lemma bits_float_float_bits {p : ℕ} (hp : p < 2 ^ 64) : bits_float (float_bits p) = p := by
  rw [float_bits_eq hp]
  split
  · rw [bits_float_eq (by omega)]
    simp_all
  · rw [bits_float_eq (by omega)]
    split <;> omega

lemma float_bits_bits_float {k : ℕ} (hk : k < 2 ^ 64) : float_bits (bits_float k) = k := by
  rw [bits_float_eq hk]
  split
  · rw [float_bits_eq (by omega)]
    simp_all
  · rw [float_bits_eq (by omega)]
    split <;> omega

/-! ## Infrastructure: value semantics -/

/-- Value of the low-63-bit magnitude `a` of a pattern.  Finite magnitudes
get their exact rational value; infinity and NaNs get sentinels above every
finite value, increasing with the pattern. -/
def fext (a : ℕ) : ℚ :=
  if a < 2 ^ 52 then (a : ℚ) * (2 : ℚ) ^ (-1074 : ℤ)
  else if a < 2047 * 2 ^ 52 then
    ((2 ^ 52 + a % 2 ^ 52 : ℕ) : ℚ) * (2 : ℚ) ^ (((a / 2 ^ 52 : ℕ) : ℤ) - 1075)
  else 2 ^ 1100 + (a : ℚ)

/-- Signed value of a full pattern. -/
def eval (p : ℕ) : ℚ := if p < 2 ^ 63 then fext p else -(fext (p - 2 ^ 63))

lemma zpow_pos2 (e : ℤ) : (0 : ℚ) < (2 : ℚ) ^ e := zpow_pos (by norm_num) e

lemma fext_lt_succ (a : ℕ) : fext a < fext (a + 1) := by
  have hz := zpow_pos2
  unfold fext
  rcases lt_trichotomy (a + 1) (2 ^ 52) with h1 | h1 | h1
  · rw [if_pos (by omega), if_pos h1]
    have : (a : ℚ) < ((a + 1 : ℕ) : ℚ) := by push_cast; linarith
    exact mul_lt_mul_of_pos_right this (hz _)
  · rw [if_pos (by omega), if_neg (by omega), if_pos (by omega)]
    have e1 : (a + 1) % 2 ^ 52 = 0 := by omega
    have e2 : (a + 1) / 2 ^ 52 = 1 := by omega
    rw [e1, e2]
    have e3 : ((1 : ℕ) : ℤ) - 1075 = (-1074 : ℤ) := by norm_num
    rw [e3]
    have : (a : ℚ) < ((2 ^ 52 + 0 : ℕ) : ℚ) := by push_cast; norm_num; omega
    exact mul_lt_mul_of_pos_right this (hz _)
  · rcases lt_trichotomy (a + 1) (2047 * 2 ^ 52) with h2 | h2 | h2
    · rw [if_neg (by omega), if_pos (by omega), if_neg (by omega), if_pos h2]
      by_cases h3 : (a + 1) % 2 ^ 52 = 0
      · -- binade rollover
        have e1 : a % 2 ^ 52 = 2 ^ 52 - 1 := by omega
        have e2 : (a + 1) / 2 ^ 52 = a / 2 ^ 52 + 1 := by omega
        rw [e1, e2, h3]
        have e3 : ((a / 2 ^ 52 + 1 : ℕ) : ℤ) - 1075 = (((a / 2 ^ 52 : ℕ) : ℤ) - 1075) + 1 := by
          push_cast; ring
        rw [e3, zpow_add_one₀ (by norm_num : (2 : ℚ) ≠ 0)]
        have c1 : ((2 ^ 52 + (2 ^ 52 - 1) : ℕ) : ℚ) < 2 * ((2 ^ 52 + 0 : ℕ) : ℚ) := by
          push_cast; norm_num
        have hzp := hz (((a / 2 ^ 52 : ℕ) : ℤ) - 1075)
        have c6 := mul_lt_mul_of_pos_right c1 hzp
        ring_nf at c6 ⊢
        linarith [c6]
      · -- same binade
        have e1 : (a + 1) % 2 ^ 52 = a % 2 ^ 52 + 1 := by omega
        have e2 : (a + 1) / 2 ^ 52 = a / 2 ^ 52 := by omega
        rw [e1, e2]
        have c1 : ((2 ^ 52 + a % 2 ^ 52 : ℕ) : ℚ) < ((2 ^ 52 + (a % 2 ^ 52 + 1) : ℕ) : ℚ) := by
          push_cast; linarith
        exact mul_lt_mul_of_pos_right c1 (hz _)
    · rw [if_neg (by omega), if_pos (by omega), if_neg (by omega), if_neg (by omega)]
      have e1 : a % 2 ^ 52 = 2 ^ 52 - 1 := by omega
      have e2 : a / 2 ^ 52 = 2046 := by omega
      rw [e1, e2]
      have e3 : ((2046 : ℕ) : ℤ) - 1075 = ((971 : ℕ) : ℤ) := by norm_num
      rw [e3, zpow_natCast]
      have c1 : ((2 ^ 52 + (2 ^ 52 - 1) : ℕ) : ℚ) * (2 : ℚ) ^ (971 : ℕ) < 2 ^ 1100 := by
        have c2 : ((2 ^ 52 + (2 ^ 52 - 1) : ℕ) : ℚ) < 2 ^ 53 := by push_cast; norm_num
        have c3 : ((2 ^ 52 + (2 ^ 52 - 1) : ℕ) : ℚ) * (2 : ℚ) ^ (971 : ℕ) <
            2 ^ 53 * 2 ^ 971 :=
          mul_lt_mul_of_pos_right c2 (pow_pos (by norm_num) 971)
        have c4 : (2 : ℚ) ^ 53 * 2 ^ 971 = 2 ^ 1024 := by
          rw [← pow_add]
        have c5 : (2 : ℚ) ^ 1024 < 2 ^ 1100 :=
          pow_lt_pow_right₀ (by norm_num) (by norm_num)
        linarith [c3, c4 ▸ c3, c5]
      have c6 : (0 : ℚ) ≤ ((a + 1 : ℕ) : ℚ) := by positivity
      linarith
    · rw [if_neg (by omega), if_neg (by omega), if_neg (by omega), if_neg (by omega)]
      have : ((a : ℕ) : ℚ) < ((a + 1 : ℕ) : ℚ) := by push_cast; linarith
      linarith

/-- `fext` is strictly monotone over the whole pattern line. -/
lemma fext_mono : StrictMono fext := strictMono_nat_of_lt_succ fext_lt_succ

lemma fext_zero : fext 0 = 0 := by
  unfold fext
  norm_num

lemma fext_nonneg (a : ℕ) : 0 ≤ fext a := by
  rcases Nat.eq_zero_or_pos a with h | h
  · rw [h, fext_zero]
  · have := fext_mono h
    rw [fext_zero] at this
    linarith

lemma fext_pos {a : ℕ} (h : 0 < a) : 0 < fext a := by
  have := fext_mono h
  rwa [fext_zero] at this

/-! ## Infrastructure: decode facts and the comparison bridge -/

lemma decode_nan_iff {p : ℕ} : decode p = .nan ↔ isNaNB p = true := by
  simp only [decode, isNaNB]
  split_ifs with h1 h2 h3 h4 <;> simp <;> omega

lemma decode_zero_iff {p : ℕ} : (∃ s, decode p = .zero s) ↔ p % 2 ^ 63 = 0 := by
  simp only [decode]
  split_ifs with h1 h2 h3 h4 <;> simp_all

lemma decode_zero_facts {p : ℕ} {s : Bool} (h : decode p = .zero s) :
    s = decide (2 ^ 63 ≤ p) ∧ p % 2 ^ 63 = 0 := by
  revert h
  simp only [decode]
  split_ifs with h1 h2 h3 h4 <;> intro h <;> cases h <;> exact ⟨rfl, h1⟩

lemma decode_inf_facts {p : ℕ} {s : Bool} (h : decode p = .inf s) :
    s = decide (2 ^ 63 ≤ p) ∧ p % 2 ^ 63 = 2047 * 2 ^ 52 := by
  revert h
  simp only [decode]
  split_ifs with h1 h2 h3 h4 <;> intro h <;> cases h <;> exact ⟨rfl, h4⟩

lemma decode_fin_facts {p : ℕ} {s : Bool} {m : ℕ} {e : ℤ} (h : decode p = .fin s m e) :
    s = decide (2 ^ 63 ≤ p) ∧ 1 ≤ m ∧ m < 2 ^ 53 ∧ -1074 ≤ e ∧ e ≤ 971 ∧
    fext (p % 2 ^ 63) = (m : ℚ) * (2 : ℚ) ^ e ∧
    p % 2 ^ 63 ≠ 0 ∧ p % 2 ^ 63 < 2047 * 2 ^ 52 := by
  revert h
  simp only [decode]
  split_ifs with h1 h2 h3 h4 <;> intro h <;> cases h
  · refine ⟨rfl, by omega, by omega, by norm_num, by norm_num, ?_, h1, by omega⟩
    unfold fext
    rw [if_pos h2]
  · have hd : p % 2 ^ 63 / 2 ^ 52 ≤ 2046 := by omega
    have hd1 : 1 ≤ p % 2 ^ 63 / 2 ^ 52 := by omega
    refine ⟨rfl, by omega, by omega, ?_, ?_, ?_, h1, h3⟩
    · have : (1 : ℤ) ≤ ((p % 2 ^ 63 / 2 ^ 52 : ℕ) : ℤ) := by exact_mod_cast hd1
      omega
    · have : ((p % 2 ^ 63 / 2 ^ 52 : ℕ) : ℤ) ≤ 2046 := by exact_mod_cast hd
      omega
    · unfold fext
      rw [if_neg h2, if_pos h3]

lemma eval_pos_pattern {p : ℕ} (h : p < 2 ^ 63) : eval p = fext p := by
  unfold eval
  rw [if_pos h]

lemma eval_neg_pattern {p : ℕ} (h : 2 ^ 63 ≤ p) (h2 : p < 2 ^ 64) :
    eval p = -(fext (p % 2 ^ 63)) := by
  unfold eval
  rw [if_neg (by omega)]
  have hmod : p - 2 ^ 63 = p % 2 ^ 63 := by omega
  rw [hmod]

lemma finLtB_iff {m1 m2 : ℕ} {e1 e2 : ℤ} :
    finLtB m1 e1 m2 e2 = true ↔ (m1 : ℚ) * (2 : ℚ) ^ e1 < (m2 : ℚ) * (2 : ℚ) ^ e2 := by
  unfold finLtB
  rw [decide_eq_true_iff]
  have key : ∀ (m : ℕ) (x : ℤ), min e1 e2 ≤ x →
      ((m * 2 ^ (x - min e1 e2).toNat : ℕ) : ℚ) * (2 : ℚ) ^ (min e1 e2) =
        (m : ℚ) * (2 : ℚ) ^ x := by
    intro m x hx
    push_cast
    rw [mul_assoc, ← zpow_natCast (2 : ℚ) (x - min e1 e2).toNat,
      Int.toNat_of_nonneg (by omega), ← zpow_add₀ (by norm_num : (2 : ℚ) ≠ 0)]
    congr 2
    omega
  constructor
  · intro hlt
    have := mul_lt_mul_of_pos_right
      (by exact_mod_cast hlt :
        ((m1 * 2 ^ (e1 - min e1 e2).toNat : ℕ) : ℚ) < ((m2 * 2 ^ (e2 - min e1 e2).toNat : ℕ) : ℚ))
      (zpow_pos2 (min e1 e2))
    rwa [key m1 e1 (min_le_left _ _), key m2 e2 (min_le_right _ _)] at this
  · intro hlt
    have h2 := mul_lt_mul_of_pos_right hlt (zpow_pos2 (-(min e1 e2)))
    rw [← key m1 e1 (min_le_left _ _), ← key m2 e2 (min_le_right _ _)] at h2
    rw [mul_assoc, mul_assoc, ← zpow_add₀ (by norm_num : (2 : ℚ) ≠ 0)] at h2
    simp only [add_neg_cancel, zpow_zero, mul_one] at h2
    exact_mod_cast h2

/-- The `<` comparison agrees with the rational value semantics on non-NaN
patterns. -/
lemma dlt_eval {p q : ℕ} (hp : p < 2 ^ 64) (hq : q < 2 ^ 64)
    (hnp : isNaNB p = false) (hnq : isNaNB q = false) :
    dlt p q = true ↔ eval p < eval q := by
  have hsent : ∀ a : ℕ, a < 2047 * 2 ^ 52 → fext a < fext (2047 * 2 ^ 52) :=
    fun a ha => fext_mono ha
  have evalP : ∀ r : ℕ, r < 2 ^ 64 → eval r =
      (if 2 ^ 63 ≤ r then -(fext (r % 2 ^ 63)) else fext (r % 2 ^ 63)) := by
    intro r hr
    split_ifs with h
    · exact eval_neg_pattern h hr
    · rw [eval_pos_pattern (by omega)]
      congr 1
      omega
  unfold dlt
  rcases hdp : decode p with _ | s1 | s1 | ⟨s1, m1, e1⟩
  all_goals rcases hdq : decode q with _ | s2 | s2 | ⟨s2, m2, e2⟩
  all_goals (try (exact absurd (decode_nan_iff.mp hdp) (by simp [hnp])))
  all_goals (try (exact absurd (decode_nan_iff.mp hdq) (by simp [hnq])))
  -- inf / inf
  · obtain ⟨hs1, ha1⟩ := decode_inf_facts hdp
    obtain ⟨hs2, ha2⟩ := decode_inf_facts hdq
    have hS : 0 < fext (2047 * 2 ^ 52) := fext_pos (by norm_num)
    rw [evalP p hp, evalP q hq, ha1, ha2]
    subst hs1 hs2
    revert hS
    generalize fext (2047 * 2 ^ 52) = S
    intro hS
    show (decide (2 ^ 63 ≤ p) && !(decide (2 ^ 63 ≤ q))) = true ↔ _
    by_cases b1 : 2 ^ 63 ≤ p <;> by_cases b2 : 2 ^ 63 ≤ q
    · rw [if_pos b1, if_pos b2, decide_eq_true b1, decide_eq_true b2]
      constructor
      · intro h
        exact absurd h (by decide)
      · intro h
        exact absurd h (by linarith)
    · rw [if_pos b1, if_neg b2, decide_eq_true b1, decide_eq_false b2]
      constructor
      · intro _
        linarith
      · intro _
        decide
    · rw [if_neg b1, if_pos b2, decide_eq_false b1, decide_eq_true b2]
      constructor
      · intro h
        exact absurd h (by decide)
      · intro h
        exact absurd h (by linarith)
    · rw [if_neg b1, if_neg b2, decide_eq_false b1, decide_eq_false b2]
      constructor
      · intro h
        exact absurd h (by decide)
      · intro h
        exact absurd h (by linarith)
  -- inf / zero
  · obtain ⟨hs1, ha1⟩ := decode_inf_facts hdp
    obtain ⟨hs2, ha2⟩ := decode_zero_facts hdq
    have hS : 0 < fext (2047 * 2 ^ 52) := fext_pos (by norm_num)
    rw [evalP p hp, evalP q hq, ha1, ha2, fext_zero]
    subst hs1
    revert hS
    generalize fext (2047 * 2 ^ 52) = S
    intro hS
    show decide (2 ^ 63 ≤ p) = true ↔ _
    by_cases b1 : 2 ^ 63 ≤ p <;> by_cases b2 : 2 ^ 63 ≤ q
    · rw [if_pos b1, if_pos b2, decide_eq_true b1]
      constructor
      · intro _
        linarith
      · intro _
        rfl
    · rw [if_pos b1, if_neg b2, decide_eq_true b1]
      constructor
      · intro _
        linarith
      · intro _
        rfl
    · rw [if_neg b1, if_pos b2, decide_eq_false b1]
      constructor
      · intro h
        exact absurd h (by decide)
      · intro h
        exact absurd h (by linarith)
    · rw [if_neg b1, if_neg b2, decide_eq_false b1]
      constructor
      · intro h
        exact absurd h (by decide)
      · intro h
        exact absurd h (by linarith)
  -- inf / fin
  · obtain ⟨hs1, ha1⟩ := decode_inf_facts hdp
    obtain ⟨hs2, _, _, _, _, hv2, hz2, hlt2⟩ := decode_fin_facts hdq
    have hS : fext (q % 2 ^ 63) < fext (2047 * 2 ^ 52) := hsent _ hlt2
    have hq0 : 0 < fext (q % 2 ^ 63) := fext_pos (by omega)
    rw [evalP p hp, evalP q hq, ha1]
    subst hs1 hs2
    revert hS hq0
    generalize fext (2047 * 2 ^ 52) = S
    generalize fext (q % 2 ^ 63) = B
    intro hS hq0
    show decide (2 ^ 63 ≤ p) = true ↔ _
    by_cases b1 : 2 ^ 63 ≤ p <;> by_cases b2 : 2 ^ 63 ≤ q
    · rw [if_pos b1, if_pos b2, decide_eq_true b1]
      constructor
      · intro _
        linarith
      · intro _
        rfl
    · rw [if_pos b1, if_neg b2, decide_eq_true b1]
      constructor
      · intro _
        linarith
      · intro _
        rfl
    · rw [if_neg b1, if_pos b2, decide_eq_false b1]
      constructor
      · intro h
        exact absurd h (by decide)
      · intro h
        exact absurd h (by linarith)
    · rw [if_neg b1, if_neg b2, decide_eq_false b1]
      constructor
      · intro h
        exact absurd h (by decide)
      · intro h
        exact absurd h (by linarith)
  -- zero / inf
  · obtain ⟨hs1, ha1⟩ := decode_zero_facts hdp
    obtain ⟨hs2, ha2⟩ := decode_inf_facts hdq
    have hS : 0 < fext (2047 * 2 ^ 52) := fext_pos (by norm_num)
    rw [evalP p hp, evalP q hq, ha1, ha2, fext_zero]
    subst hs2
    revert hS
    generalize fext (2047 * 2 ^ 52) = S
    intro hS
    show (!(decide (2 ^ 63 ≤ q))) = true ↔ _
    by_cases b1 : 2 ^ 63 ≤ p <;> by_cases b2 : 2 ^ 63 ≤ q
    · rw [if_pos b1, if_pos b2, decide_eq_true b2]
      constructor
      · intro h
        exact absurd h (by decide)
      · intro h
        exact absurd h (by linarith)
    · rw [if_pos b1, if_neg b2, decide_eq_false b2]
      constructor
      · intro _
        linarith
      · intro _
        rfl
    · rw [if_neg b1, if_pos b2, decide_eq_true b2]
      constructor
      · intro h
        exact absurd h (by decide)
      · intro h
        exact absurd h (by linarith)
    · rw [if_neg b1, if_neg b2, decide_eq_false b2]
      constructor
      · intro _
        linarith
      · intro _
        rfl
  -- zero / zero
  · obtain ⟨_, ha1⟩ := decode_zero_facts hdp
    obtain ⟨_, ha2⟩ := decode_zero_facts hdq
    rw [evalP p hp, evalP q hq, ha1, ha2, fext_zero]
    show false = true ↔ _
    constructor
    · intro h
      exact absurd h (by decide)
    · intro h
      split_ifs at h <;> norm_num at h
  -- zero / fin
  · obtain ⟨hs1, ha1⟩ := decode_zero_facts hdp
    obtain ⟨hs2, _, _, _, _, hv2, hz2, hlt2⟩ := decode_fin_facts hdq
    have hq0 : 0 < fext (q % 2 ^ 63) := fext_pos (by omega)
    rw [evalP p hp, evalP q hq, ha1, fext_zero]
    subst hs2
    revert hq0
    generalize fext (q % 2 ^ 63) = B
    intro hq0
    show (!(decide (2 ^ 63 ≤ q))) = true ↔ _
    by_cases b1 : 2 ^ 63 ≤ p <;> by_cases b2 : 2 ^ 63 ≤ q
    · rw [if_pos b1, if_pos b2, decide_eq_true b2]
      constructor
      · intro h
        exact absurd h (by decide)
      · intro h
        exact absurd h (by linarith)
    · rw [if_pos b1, if_neg b2, decide_eq_false b2]
      constructor
      · intro _
        linarith
      · intro _
        rfl
    · rw [if_neg b1, if_pos b2, decide_eq_true b2]
      constructor
      · intro h
        exact absurd h (by decide)
      · intro h
        exact absurd h (by linarith)
    · rw [if_neg b1, if_neg b2, decide_eq_false b2]
      constructor
      · intro _
        linarith
      · intro _
        rfl
  -- fin / inf
  · obtain ⟨hs1, _, _, _, _, hv1, hz1, hlt1⟩ := decode_fin_facts hdp
    obtain ⟨hs2, ha2⟩ := decode_inf_facts hdq
    have hS : fext (p % 2 ^ 63) < fext (2047 * 2 ^ 52) := hsent _ hlt1
    have hp0 : 0 < fext (p % 2 ^ 63) := fext_pos (by omega)
    rw [evalP p hp, evalP q hq, ha2]
    subst hs1 hs2
    revert hS hp0
    generalize fext (2047 * 2 ^ 52) = S
    generalize fext (p % 2 ^ 63) = A
    intro hS hp0
    show (!(decide (2 ^ 63 ≤ q))) = true ↔ _
    by_cases b1 : 2 ^ 63 ≤ p <;> by_cases b2 : 2 ^ 63 ≤ q
    · rw [if_pos b1, if_pos b2, decide_eq_true b2]
      constructor
      · intro h
        exact absurd h (by decide)
      · intro h
        exact absurd h (by linarith)
    · rw [if_pos b1, if_neg b2, decide_eq_false b2]
      constructor
      · intro _
        linarith
      · intro _
        rfl
    · rw [if_neg b1, if_pos b2, decide_eq_true b2]
      constructor
      · intro h
        exact absurd h (by decide)
      · intro h
        exact absurd h (by linarith)
    · rw [if_neg b1, if_neg b2, decide_eq_false b2]
      constructor
      · intro _
        linarith
      · intro _
        rfl
  -- fin / zero
  · obtain ⟨hs1, _, _, _, _, hv1, hz1, hlt1⟩ := decode_fin_facts hdp
    obtain ⟨hs2, ha2⟩ := decode_zero_facts hdq
    have hp0 : 0 < fext (p % 2 ^ 63) := fext_pos (by omega)
    rw [evalP p hp, evalP q hq, ha2, fext_zero]
    subst hs1
    revert hp0
    generalize fext (p % 2 ^ 63) = A
    intro hp0
    show decide (2 ^ 63 ≤ p) = true ↔ _
    by_cases b1 : 2 ^ 63 ≤ p <;> by_cases b2 : 2 ^ 63 ≤ q
    · rw [if_pos b1, if_pos b2, decide_eq_true b1]
      constructor
      · intro _
        linarith
      · intro _
        rfl
    · rw [if_pos b1, if_neg b2, decide_eq_true b1]
      constructor
      · intro _
        linarith
      · intro _
        rfl
    · rw [if_neg b1, if_pos b2, decide_eq_false b1]
      constructor
      · intro h
        exact absurd h (by decide)
      · intro h
        exact absurd h (by linarith)
    · rw [if_neg b1, if_neg b2, decide_eq_false b1]
      constructor
      · intro h
        exact absurd h (by decide)
      · intro h
        exact absurd h (by linarith)
  -- fin / fin
  · obtain ⟨hs1, hm1, _, _, _, hv1, hz1, hlt1⟩ := decode_fin_facts hdp
    obtain ⟨hs2, hm2, _, _, _, hv2, hz2, hlt2⟩ := decode_fin_facts hdq
    have hp0 : 0 < fext (p % 2 ^ 63) := fext_pos (by omega)
    have hq0 : 0 < fext (q % 2 ^ 63) := fext_pos (by omega)
    rw [evalP p hp, evalP q hq]
    subst hs1 hs2
    show (if decide (2 ^ 63 ≤ p) = decide (2 ^ 63 ≤ q) then
        (if decide (2 ^ 63 ≤ p) = true then finLtB m2 e2 m1 e1 else finLtB m1 e1 m2 e2)
      else decide (2 ^ 63 ≤ p)) = true ↔ _
    by_cases b1 : 2 ^ 63 ≤ p <;> by_cases b2 : 2 ^ 63 ≤ q
    · -- both negative
      rw [if_pos b1, if_pos b2, decide_eq_true b1, decide_eq_true b2, if_pos rfl, if_pos rfl,
        finLtB_iff, ← hv1, ← hv2]
      constructor
      · intro h
        linarith
      · intro h
        linarith
    · -- p negative, q positive
      rw [if_pos b1, if_neg b2, decide_eq_true b1, decide_eq_false b2, if_neg (by decide)]
      constructor
      · intro _
        linarith
      · intro _
        rfl
    · -- p positive, q negative
      rw [if_neg b1, if_pos b2, decide_eq_false b1, decide_eq_true b2, if_neg (by decide)]
      constructor
      · intro h
        exact absurd h (by decide)
      · intro h
        exact absurd h (by linarith)
    · -- both positive
      rw [if_neg b1, if_neg b2, decide_eq_false b1, decide_eq_false b2, if_pos rfl,
        if_neg (by decide), finLtB_iff, ← hv1, ← hv2]

/-- The `<=` comparison agrees with the value semantics on non-NaN patterns. -/
lemma dle_eval {p q : ℕ} (hp : p < 2 ^ 64) (hq : q < 2 ^ 64)
    (hnp : isNaNB p = false) (hnq : isNaNB q = false) :
    dle p q = true ↔ eval p ≤ eval q := by
  unfold dle
  rw [hnp, hnq]
  constructor
  · intro h
    by_contra hlt
    push_neg at hlt
    rw [← dlt_eval hq hp hnq hnp] at hlt
    rw [hlt] at h
    simp at h
  · intro h
    have hd : dlt q p = false := by
      cases hdl : dlt q p
      · rfl
      · rw [dlt_eval hq hp hnq hnp] at hdl
        exact absurd h (not_le.mpr hdl)
    rw [hd]
    decide

/-! ## Infrastructure: the signed-key order line -/

/-- Index of a pattern on the signed-key line: the total-order key shifted
so that the most negative value sits at index 0. -/
def jdx (p : ℕ) : ℕ := (float_bits p + 2 ^ 63) % 2 ^ 64

/-- Value of the pattern at signed-key index `j`. -/
def H (j : ℕ) : ℚ := if j < 2 ^ 63 then -(fext (2 ^ 63 - 1 - j)) else fext (j - 2 ^ 63)

lemma H_mono : Monotone H := by
  apply monotone_nat_of_le_succ
  intro j
  unfold H
  rcases lt_trichotomy (j + 1) (2 ^ 63) with h1 | h1 | h1
  · rw [if_pos (by omega), if_pos h1]
    have : (2 ^ 63 - 1 - (j + 1)) ≤ 2 ^ 63 - 1 - j := by omega
    have := fext_mono.monotone this
    linarith
  · rw [if_pos (by omega), if_neg (by omega)]
    have e1 : 2 ^ 63 - 1 - j = 0 := by omega
    have e2 : j + 1 - 2 ^ 63 = 0 := by omega
    rw [e1, e2, fext_zero]
    norm_num
  · rw [if_neg (by omega), if_neg (by omega)]
    exact fext_mono.monotone (by omega)

lemma H_lt_succ {j : ℕ} (h : j ≠ 2 ^ 63 - 1) : H j < H (j + 1) := by
  unfold H
  rcases lt_trichotomy (j + 1) (2 ^ 63) with h1 | h1 | h1
  · rw [if_pos (by omega), if_pos h1]
    have : (2 ^ 63 - 1 - (j + 1)) < 2 ^ 63 - 1 - j := by omega
    have := fext_mono this
    linarith
  · omega
  · rw [if_neg (by omega), if_neg (by omega)]
    exact fext_mono (by omega)

lemma jdx_lt (p : ℕ) : jdx p < 2 ^ 64 := Nat.mod_lt _ (by norm_num)

lemma eval_H {p : ℕ} (hp : p < 2 ^ 64) : eval p = H (jdx p) := by
  unfold jdx H
  rw [float_bits_eq hp]
  by_cases h : p < 2 ^ 63
  · rw [if_pos h]
    have e1 : (p + 2 ^ 63) % 2 ^ 64 = p + 2 ^ 63 := by omega
    rw [e1, if_neg (by omega), eval_pos_pattern h]
    have e2 : p + 2 ^ 63 - 2 ^ 63 = p := by omega
    rw [e2]
  · rw [if_neg h]
    have e1 : (2 ^ 64 + 2 ^ 63 - 1 - p + 2 ^ 63) % 2 ^ 64 = 2 ^ 64 - 1 - p := by omega
    rw [e1, if_pos (by omega), eval_neg_pattern (by omega) hp]
    have e2 : 2 ^ 63 - 1 - (2 ^ 64 - 1 - p) = p % 2 ^ 63 := by omega
    rw [e2]

lemma jdx_next {p : ℕ} (hp : p < 2 ^ 64) (hne : p ≠ 2 ^ 63 - 1) :
    jdx (next p) = jdx p + 1 := by
  unfold next next_k jdx
  have hfb := float_bits_lt hp
  rw [float_bits_bits_float (by omega)]
  have hfe : float_bits p ≠ 2 ^ 63 - 1 := by
    rw [float_bits_eq hp]
    split <;> omega
  omega

lemma jdx_prev {p : ℕ} (hp : p < 2 ^ 64) (h0 : p ≠ 0) (hw : p ≠ 2 ^ 64 - 1) :
    jdx p = jdx (prev p) + 1 := by
  unfold prev prev_k jdx
  have hfb := float_bits_lt hp
  rw [float_bits_bits_float (by omega)]
  have hf0 : float_bits p ≠ 0 := by
    rw [float_bits_eq hp]
    split <;> omega
  have hfe : float_bits p ≠ 2 ^ 63 := by
    rw [float_bits_eq hp]
    split <;> omega
  omega

lemma next_lt_64 {p : ℕ} (hp : p < 2 ^ 64) : next p < 2 ^ 64 := by
  unfold next next_k
  exact bits_float_lt (by omega)

lemma prev_lt_64 {p : ℕ} (hp : p < 2 ^ 64) : prev p < 2 ^ 64 := by
  unfold prev prev_k
  exact bits_float_lt (by omega)

lemma eval_le_of_jdx_le {p q : ℕ} (hp : p < 2 ^ 64) (hq : q < 2 ^ 64)
    (h : jdx p ≤ jdx q) : eval p ≤ eval q := by
  rw [eval_H hp, eval_H hq]
  exact H_mono h

lemma jdx_lt_of_eval_lt {p q : ℕ} (hp : p < 2 ^ 64) (hq : q < 2 ^ 64)
    (h : eval p < eval q) : jdx p < jdx q := by
  by_contra hc
  push_neg at hc
  exact absurd (eval_le_of_jdx_le hq hp hc) (by linarith)

/-! ## Infrastructure: rounding-engine classification -/

lemma nlog2F_correct : ∀ fuel m, 1 ≤ m → m < 2 ^ fuel →
    2 ^ nlog2F fuel m ≤ m ∧ m < 2 ^ (nlog2F fuel m + 1) := by
  intro fuel
  induction fuel with
  | zero =>
    intro m h1 h2
    omega
  | succ fuel ih =>
    intro m h1 h2
    unfold nlog2F
    split
    · constructor
      · simpa using h1
      · rename_i hle
        omega
    · have hm2 : 2 ≤ m := by omega
      have hd1 : 1 ≤ m / 2 := by omega
      have hd2 : m / 2 < 2 ^ fuel := by
        rw [pow_succ] at h2
        omega
      obtain ⟨ha, hb⟩ := ih (m / 2) hd1 hd2
      constructor
      · rw [pow_succ]
        omega
      · rw [pow_succ]
        rw [pow_succ] at hb
        omega

lemma nlog2_correct {m : ℕ} (h1 : 1 ≤ m) (h2 : m < 2 ^ 6000) :
    2 ^ nlog2 m ≤ m ∧ m < 2 ^ (nlog2 m + 1) :=
  nlog2F_correct 6000 m h1 h2

lemma shiftRNE_le (m k : ℕ) : shiftRNE m k ≤ m / 2 ^ k + 1 := by
  unfold shiftRNE
  split <;> omega

lemma shiftRNE_ge (m k : ℕ) : m / 2 ^ k ≤ shiftRNE m k := by
  unfold shiftRNE
  split <;> omega

/-- Bound on the rounded 53-bit mantissa. -/
lemma normQ_le {m : ℕ} (hm0 : 1 ≤ m) (hm : m < 2 ^ 6000) : normQ m (nlog2 m) ≤ 2 ^ 53 := by
  obtain ⟨hL1, hL2⟩ := nlog2_correct hm0 hm
  unfold normQ
  split
  · rename_i hL52
    have h2 : m * 2 ^ (52 - nlog2 m) < 2 ^ (nlog2 m + 1) * 2 ^ (52 - nlog2 m) :=
      (Nat.mul_lt_mul_right (Nat.pos_pow_of_pos _ (by norm_num))).mpr hL2
    have h3 : 2 ^ (nlog2 m + 1) * 2 ^ (52 - nlog2 m) = 2 ^ (nlog2 m + 1 + (52 - nlog2 m)) :=
      (pow_add 2 _ _).symm
    have h5 : (2 : ℕ) ^ (nlog2 m + 1 + (52 - nlog2 m)) ≤ 2 ^ 53 :=
      Nat.pow_le_pow_right (by norm_num) (by omega)
    omega
  · rename_i hL52
    have h2 := shiftRNE_le m (nlog2 m - 52)
    have h3 : m / 2 ^ (nlog2 m - 52) < 2 ^ 53 := by
      rw [Nat.div_lt_iff_lt_mul (Nat.pos_pow_of_pos _ (by norm_num))]
      have h4 : (2 : ℕ) ^ 53 * 2 ^ (nlog2 m - 52) = 2 ^ (53 + (nlog2 m - 52)) :=
        (pow_add 2 _ _).symm
      have h6 : (2 : ℕ) ^ (nlog2 m + 1) ≤ 2 ^ (53 + (nlog2 m - 52)) :=
        Nat.pow_le_pow_right (by norm_num) (by omega)
      omega
    omega

/-- Structure of a rounded pattern: a sign bit plus a body that never reaches
the NaN range, and a positive body whenever the value cannot round to zero. -/
lemma roundFin_body {s : Bool} {m : ℕ} {e : ℤ} (hm : m < 2 ^ 6000) :
    ∃ b, b ≤ pinf ∧ (1 ≤ m → -1074 ≤ e → 1 ≤ b) ∧
      roundFin s m e = (if s then 2 ^ 63 else 0) + b := by
  have hzero : ∀ t : Bool, pzero t = (if t then 2 ^ 63 else 0) + 0 := by
    intro t
    unfold pzero
    cases t <;> rfl
  have hpack : ∀ (t : Bool) (E M : ℕ), pack t E M = (if t then 2 ^ 63 else 0) + (E * 2 ^ 52 + M) := by
    intro t E M
    unfold pack
    ring
  have hinf : ∀ t : Bool, pinfS t = (if t then 2 ^ 63 else 0) + pinf := by
    intro t
    unfold pinfS
    cases t <;> simp
  unfold roundFin
  split
  · exact ⟨0, by unfold pinf; omega, by omega, hzero s⟩
  · rename_i hm0
    have h1 : 1 ≤ m := by omega
    split
    · -- subnormal range
      rename_i hsub
      have hqpos : -1074 ≤ e → 1 ≤ subQ m e := by
        intro he
        unfold subQ
        rw [if_pos he]
        have h2 : 0 < 2 ^ (e + 1074).toNat := Nat.pos_pow_of_pos _ (by norm_num)
        exact Nat.one_le_iff_ne_zero.mpr (Nat.mul_ne_zero (by omega) (by omega))
      split
      · rename_i hq0
        refine ⟨0, by unfold pinf; omega, ?_, hzero s⟩
        intro _ he
        exact absurd hq0 (by have := hqpos he; omega)
      · rename_i hq0
        split
        · rename_i hqlt
          refine ⟨0 * 2 ^ 52 + subQ m e, by unfold pinf; omega, ?_, hpack s 0 (subQ m e)⟩
          intro _ _
          omega
        · exact ⟨1 * 2 ^ 52 + 0, by unfold pinf; omega, by omega, hpack s 1 0⟩
    · -- normal range
      rename_i hsub
      have hq53 := normQ_le h1 hm
      split
      · -- carry out of the mantissa
        split
        · exact ⟨pinf, le_refl _, by unfold pinf; omega, hinf s⟩
        · rename_i hcar hE
          refine ⟨_, ?_, ?_, hpack s _ 0⟩
          · have : ((((nlog2 m : ℕ) : ℤ) + e + 1) + 1023).toNat ≤ 2046 := by omega
            unfold pinf
            omega
          · intro _ _
            have : 1 ≤ ((((nlog2 m : ℕ) : ℤ) + e + 1) + 1023).toNat := by omega
            omega
      · split
        · exact ⟨pinf, le_refl _, by unfold pinf; omega, hinf s⟩
        · rename_i hcar hE
          refine ⟨_, ?_, ?_, hpack s _ _⟩
          · have h2 : ((((nlog2 m : ℕ) : ℤ) + e) + 1023).toNat ≤ 2046 := by omega
            have h3 : normQ m (nlog2 m) - 2 ^ 52 ≤ 2 ^ 53 - 1 - 2 ^ 52 := by omega
            unfold pinf
            omega
          · intro _ _
            have : 1 ≤ ((((nlog2 m : ℕ) : ℤ) + e) + 1023).toNat := by omega
            omega

/-- A rounded positive value is a sign-0 non-NaN pattern. -/
lemma roundFin_false_le {m : ℕ} {e : ℤ} (hm : m < 2 ^ 6000) :
    roundFin false m e ≤ pinf := by
  obtain ⟨b, hb, _, heq⟩ := roundFin_body (s := false) (e := e) hm
  simp at heq
  omega

/-- A rounded positive value with exponent at least `-1074` is nonzero. -/
lemma roundFin_false_pos {m : ℕ} {e : ℤ} (hm : m < 2 ^ 6000) (h1 : 1 ≤ m)
    (he : -1074 ≤ e) : 1 ≤ roundFin false m e := by
  obtain ⟨b, hb, hpos, heq⟩ := roundFin_body (s := false) (e := e) hm
  simp at heq
  have := hpos h1 he
  omega

/-- A rounded negative value is a sign-1 non-NaN pattern. -/
lemma roundFin_true_range {m : ℕ} {e : ℤ} (hm : m < 2 ^ 6000) :
    2 ^ 63 ≤ roundFin true m e ∧ roundFin true m e ≤ 2 ^ 63 + pinf := by
  obtain ⟨b, hb, _, heq⟩ := roundFin_body (s := true) (e := e) hm
  simp at heq
  omega

lemma lt_pow_mono {m a b : ℕ} (h : m < 2 ^ a) (hab : a ≤ b) : m < 2 ^ b :=
  lt_of_lt_of_le h (Nat.pow_le_pow_right (by norm_num) hab)

/-- A rounded sticky value keeps the same classification. -/
lemma roundSticky_false_le {m : ℕ} {e : ℤ} {st : Bool} (hm : m < 2 ^ 1000) :
    roundSticky false m e st ≤ pinf := by
  have h4 : 4 * m + 1 < 2 ^ 1002 := by
    have he : (2 : ℕ) ^ 1002 = 2 ^ 1000 * 2 ^ 2 := (pow_add 2 1000 2).symm
    omega
  unfold roundSticky
  split
  · exact roundFin_false_le (lt_pow_mono h4 (by norm_num))
  · exact roundFin_false_le (lt_pow_mono (lt_pow_mono hm (by norm_num : 1000 ≤ 1002)) (by norm_num))

/-! ## Infrastructure: decode ranges and operation classification -/

lemma nlog2_lt_of_lt {m a : ℕ} (h1 : 1 ≤ m) (ha : a ≤ 6000) (h : m < 2 ^ a) :
    nlog2 m < a := by
  obtain ⟨hL1, _⟩ := nlog2_correct h1 (lt_pow_mono h ha)
  by_contra hc
  push_neg at hc
  have : (2 : ℕ) ^ a ≤ 2 ^ nlog2 m := Nat.pow_le_pow_right (by norm_num) hc
  omega

lemma mulpow_lt {m k a b : ℕ} (hm : m < 2 ^ a) (hk : k ≤ b) : m * 2 ^ k < 2 ^ (a + b) := by
  have h1 : m * 2 ^ k < 2 ^ a * 2 ^ k :=
    (Nat.mul_lt_mul_right (Nat.pos_pow_of_pos _ (by norm_num))).mpr hm
  have h2 : (2 : ℕ) ^ a * 2 ^ k = 2 ^ (a + k) := (pow_add 2 a k).symm
  have h3 : (2 : ℕ) ^ (a + k) ≤ 2 ^ (a + b) := Nat.pow_le_pow_right (by norm_num) (by omega)
  omega

/-- Case analysis on the decode of a sign-0 pattern. -/
lemma decode_cases63 {x : ℕ} (hx : x < 2 ^ 63) :
    (decode x = .nan ∧ pinf < x) ∨ (decode x = .zero false ∧ x = 0) ∨
    (decode x = .inf false ∧ x = pinf) ∨
    (∃ m e, decode x = .fin false m e ∧ 1 ≤ m ∧ m < 2 ^ 53 ∧ -1074 ≤ e ∧ e ≤ 971) := by
  have hs : decide (2 ^ 63 ≤ x) = false := decide_eq_false (by omega)
  have hmod : x % 2 ^ 63 = x := Nat.mod_eq_of_lt hx
  simp only [decode, hmod, hs]
  split_ifs with h1 h2 h3 h4
  · exact Or.inr (Or.inl ⟨rfl, h1⟩)
  · exact Or.inr (Or.inr (Or.inr ⟨x, -1074, rfl, by omega, by omega, by norm_num, by norm_num⟩))
  · refine Or.inr (Or.inr (Or.inr ⟨_, _, rfl, by omega, by omega, ?_, ?_⟩))
    · have hd1 : 1 ≤ x / 2 ^ 52 := by omega
      have : (1 : ℤ) ≤ ((x / 2 ^ 52 : ℕ) : ℤ) := by exact_mod_cast hd1
      omega
    · have hd : x / 2 ^ 52 ≤ 2046 := by omega
      have : ((x / 2 ^ 52 : ℕ) : ℤ) ≤ 2046 := by exact_mod_cast hd
      omega
  · exact Or.inr (Or.inr (Or.inl ⟨rfl, by unfold pinf; omega⟩))
  · exact Or.inl ⟨rfl, by unfold pinf; omega⟩

/-- Decode of a strictly positive non-NaN pattern. -/
lemma decode_pos_cases {x : ℕ} (h1 : 1 ≤ x) (h2 : x ≤ pinf) :
    (decode x = .inf false ∧ x = pinf) ∨
    (∃ m e, decode x = .fin false m e ∧ 1 ≤ m ∧ m < 2 ^ 53 ∧ -1074 ≤ e ∧ e ≤ 971) := by
  have hx : x < 2 ^ 63 := by unfold pinf at h2; omega
  rcases decode_cases63 hx with ⟨_, hc⟩ | ⟨_, hc⟩ | ⟨hd, hc⟩ | ⟨m, e, hd, hf⟩
  · omega
  · omega
  · exact Or.inl ⟨hd, hc⟩
  · exact Or.inr ⟨m, e, hd, hf⟩

/-- Decode of a strictly negative non-NaN pattern. -/
lemma decode_neg_cases {x : ℕ} (h0 : x < 2 ^ 64) (h1 : 2 ^ 63 < x) (h2 : x % 2 ^ 63 ≤ pinf) :
    (decode x = .inf true ∧ x = 2 ^ 63 + pinf) ∨
    (∃ m e, decode x = .fin true m e ∧ 1 ≤ m ∧ m < 2 ^ 53 ∧ -1074 ≤ e ∧ e ≤ 971) := by
  have hs : decide (2 ^ 63 ≤ x) = true := decide_eq_true (by omega)
  have hmod : x % 2 ^ 63 = x - 2 ^ 63 := by omega
  simp only [decode, hmod, hs]
  split_ifs with ha1 ha2 ha3 ha4
  · omega
  · exact Or.inr ⟨_, _, rfl, by omega, by omega, by norm_num, by norm_num⟩
  · refine Or.inr ⟨_, _, rfl, by omega, by omega, ?_, ?_⟩
    · have hd1 : 1 ≤ (x - 2 ^ 63) / 2 ^ 52 := by omega
      have : (1 : ℤ) ≤ (((x - 2 ^ 63) / 2 ^ 52 : ℕ) : ℤ) := by exact_mod_cast hd1
      omega
    · have hd : (x - 2 ^ 63) / 2 ^ 52 ≤ 2046 := by omega
      have : (((x - 2 ^ 63) / 2 ^ 52 : ℕ) : ℤ) ≤ 2046 := by exact_mod_cast hd
      omega
  · exact Or.inl ⟨rfl, by unfold pinf at *; omega⟩
  · unfold pinf at h2
    omega

/-- A true `<` forces both operands off NaN. -/
lemma dlt_not_nan {x y : ℕ} (h : dlt x y = true) :
    isNaNB x = false ∧ isNaNB y = false := by
  constructor
  · cases hx : isNaNB x
    · rfl
    · have hdx := decode_nan_iff.mpr hx
      unfold dlt at h
      rcases hdy : decode y with _ | s | s | ⟨s, m, e⟩ <;> rw [hdx, hdy] at h <;> cases h
  · cases hy : isNaNB y
    · rfl
    · have hdy := decode_nan_iff.mpr hy
      unfold dlt at h
      rcases hdx : decode x with _ | s | s | ⟨s, m, e⟩ <;> rw [hdx, hdy] at h <;> cases h

lemma eval_zero_pat : eval 0 = 0 := by
  rw [eval_pos_pattern (by norm_num), fext_zero]

lemma isNaNB_false_iff {p : ℕ} : isNaNB p = false ↔ p % 2 ^ 63 ≤ 2047 * 2 ^ 52 := by
  unfold isNaNB
  rw [decide_eq_false_iff_not]
  omega

/-- Strict positivity (`0 < x` as doubles) pins the pattern in `[1, pinf]`. -/
lemma dlt_pos_right {x : ℕ} (hx : x < 2 ^ 64) (h : dlt dzero x = true) :
    1 ≤ x ∧ x ≤ pinf := by
  unfold dzero at h
  obtain ⟨_, hnx⟩ := dlt_not_nan h
  have hlow : x % 2 ^ 63 ≤ pinf := by
    unfold pinf
    exact isNaNB_false_iff.mp hnx
  rw [dlt_eval (by norm_num) hx (by decide) hnx, eval_zero_pat] at h
  have hxpos : x < 2 ^ 63 := by
    by_contra hc
    push_neg at hc
    rw [eval_neg_pattern hc hx] at h
    have := fext_nonneg (x % 2 ^ 63)
    linarith
  have hx0 : x ≠ 0 := by
    intro h0
    rw [h0, eval_zero_pat] at h
    linarith
  omega

/-- Strict negativity (`x < 0` as doubles) pins the pattern in
`(2^63, 2^63 + pinf]`. -/
lemma dlt_neg_left {x : ℕ} (hx : x < 2 ^ 64) (h : dlt x dzero = true) :
    2 ^ 63 < x ∧ x % 2 ^ 63 ≤ pinf := by
  unfold dzero at h
  obtain ⟨hnx, _⟩ := dlt_not_nan h
  have hlow : x % 2 ^ 63 ≤ pinf := by
    unfold pinf
    exact isNaNB_false_iff.mp hnx
  rw [dlt_eval hx (by norm_num) hnx (by decide), eval_zero_pat] at h
  have hxneg : 2 ^ 63 ≤ x := by
    by_contra hc
    push_neg at hc
    rw [eval_pos_pattern hc] at h
    have := fext_nonneg x
    linarith
  have hx0 : x ≠ 2 ^ 63 := by
    intro h0
    rw [eval_neg_pattern hxneg hx, h0] at h
    have e0 : 2 ^ 63 % 2 ^ 63 = 0 := by omega
    rw [e0, fext_zero] at h
    linarith
  exact ⟨by omega, hlow⟩

/-- Sum of two strictly positive doubles is strictly positive (or `+inf`). -/
lemma addD_strictPos {x y : ℕ} (hx1 : 1 ≤ x) (hx2 : x ≤ pinf)
    (hy1 : 1 ≤ y) (hy2 : y ≤ pinf) : 1 ≤ addD x y ∧ addD x y ≤ pinf := by
  rcases decode_pos_cases hx1 hx2 with ⟨hdx, _⟩ | ⟨m1, e1, hdx, hm1, hm1b, he1, he1b⟩ <;>
    rcases decode_pos_cases hy1 hy2 with ⟨hdy, _⟩ | ⟨m2, e2, hdy, hm2, hm2b, he2, he2b⟩
  · have he : addD x y = pinfS false := by
      simp only [addD, hdx, hdy, if_true]
    rw [he]
    unfold pinfS pinf
    norm_num
  · have he : addD x y = pinfS false := by
      simp only [addD, hdx, hdy, if_true]
    rw [he]
    unfold pinfS pinf
    norm_num
  · have he : addD x y = pinfS false := by
      simp only [addD, hdx, hdy, if_true]
    rw [he]
    unfold pinfS pinf
    norm_num
  · have he : addD x y = roundFin false
        (m1 * 2 ^ (e1 - min e1 e2).toNat + m2 * 2 ^ (e2 - min e1 e2).toNat) (min e1 e2) := by
      simp only [addD, hdx, hdy, if_true]
    have hM1 : m1 * 2 ^ (e1 - min e1 e2).toNat < 2 ^ (53 + 2045) :=
      mulpow_lt hm1b (by omega)
    have hM2 : m2 * 2 ^ (e2 - min e1 e2).toNat < 2 ^ (53 + 2045) :=
      mulpow_lt hm2b (by omega)
    have hsum : m1 * 2 ^ (e1 - min e1 e2).toNat + m2 * 2 ^ (e2 - min e1 e2).toNat < 2 ^ 6000 := by
      have h9 : (2 : ℕ) ^ (53 + 2045) + 2 ^ (53 + 2045) = 2 ^ 2099 := by omega
      have h10 : (2 : ℕ) ^ 2099 ≤ 2 ^ 6000 := Nat.pow_le_pow_right (by norm_num) (by norm_num)
      omega
    have hp1 : 1 ≤ m1 * 2 ^ (e1 - min e1 e2).toNat + m2 * 2 ^ (e2 - min e1 e2).toNat := by
      have := Nat.pos_pow_of_pos (e1 - min e1 e2).toNat (show 0 < 2 by norm_num)
      have := Nat.one_le_iff_ne_zero.mpr (Nat.mul_ne_zero (by omega) (by omega) :
        m1 * 2 ^ (e1 - min e1 e2).toNat ≠ 0)
      omega
    rw [he]
    exact ⟨roundFin_false_pos hsum hp1 (by omega), roundFin_false_le hsum⟩

lemma pinf_le_pnan : pinf ≤ pnan := by
  unfold pinf pnan
  omega

/-- Product of two sign-0 patterns is a sign-0 pattern (at worst the
canonical NaN). -/
lemma mulD_le_pnan {x y : ℕ} (hx : x < 2 ^ 63) (hy : y < 2 ^ 63) :
    mulD x y ≤ pnan := by
  rcases decode_cases63 hx with ⟨hdx, hx2⟩ | ⟨hdx, hx2⟩ | ⟨hdx, hx2⟩ |
      ⟨m1, e1, hdx, hm1, hm1b, he1, he1b⟩ <;>
    rcases decode_cases63 hy with ⟨hdy, hy2⟩ | ⟨hdy, hy2⟩ | ⟨hdy, hy2⟩ |
      ⟨m2, e2, hdy, hm2, hm2b, he2, he2b⟩ <;>
    simp only [mulD, hdx, hdy, Bool.xor_false, Bool.false_xor]
  all_goals try (unfold pnan; omega)
  all_goals try (exact le_trans (by unfold pinfS; norm_num) pinf_le_pnan)
  all_goals try (exact le_trans (by unfold pzero; norm_num : pzero false ≤ pinf) pinf_le_pnan)
  -- remaining: finite times finite
  have hmul : m1 * m2 < 2 ^ 6000 := by
    have h1 : m1 * m2 < 2 ^ 53 * 2 ^ 53 := Nat.mul_lt_mul_of_lt_of_lt hm1b hm2b
    have h2 : (2 : ℕ) ^ 53 * 2 ^ 53 = 2 ^ 106 := (pow_add 2 53 53).symm
    have h3 : (2 : ℕ) ^ 106 ≤ 2 ^ 6000 := Nat.pow_le_pow_right (by norm_num) (by norm_num)
    omega
  exact le_trans (roundFin_false_le hmul) pinf_le_pnan

/-- Quotient of two sign-0 patterns is a sign-0 pattern (at worst the
canonical NaN). -/
lemma divD_le_pnan {x y : ℕ} (hx : x < 2 ^ 63) (hy : y < 2 ^ 63) :
    divD x y ≤ pnan := by
  rcases decode_cases63 hx with ⟨hdx, hx2⟩ | ⟨hdx, hx2⟩ | ⟨hdx, hx2⟩ |
      ⟨m1, e1, hdx, hm1, hm1b, he1, he1b⟩ <;>
    rcases decode_cases63 hy with ⟨hdy, hy2⟩ | ⟨hdy, hy2⟩ | ⟨hdy, hy2⟩ |
      ⟨m2, e2, hdy, hm2, hm2b, he2, he2b⟩ <;>
    simp only [divD, hdx, hdy, Bool.xor_false, Bool.false_xor]
  all_goals try (unfold pnan; omega)
  all_goals try (exact le_trans (by unfold pinfS; norm_num) pinf_le_pnan)
  all_goals try (exact le_trans (by unfold pzero; norm_num : pzero false ≤ pinf) pinf_le_pnan)
  -- remaining: finite over finite
  have hq : m1 * 2 ^ (nlog2 m2 + 60 - nlog2 m1) / m2 < 2 ^ 1000 := by
    have hL2 : nlog2 m2 < 53 := nlog2_lt_of_lt hm2 (by norm_num) hm2b
    have hN : m1 * 2 ^ (nlog2 m2 + 60 - nlog2 m1) < 2 ^ (53 + 113) :=
      mulpow_lt hm1b (by omega)
    have hdiv : m1 * 2 ^ (nlog2 m2 + 60 - nlog2 m1) / m2 ≤
        m1 * 2 ^ (nlog2 m2 + 60 - nlog2 m1) := Nat.div_le_self _ _
    have h3 : (2 : ℕ) ^ (53 + 113) ≤ 2 ^ 1000 := Nat.pow_le_pow_right (by norm_num) (by norm_num)
    omega
  exact le_trans (roundSticky_false_le hq) pinf_le_pnan

/-- Bound on the bit-descent integer square root. -/
lemma nsqrtAux_le : ∀ (i n r : ℕ), nsqrtAux i n r ≤ r + 2 ^ (i + 1) := by
  intro i
  induction i with
  | zero =>
    intro n r
    unfold nsqrtAux
    omega
  | succ i ih =>
    intro n r
    have e1 : (2 : ℕ) ^ (i + 1) = 2 ^ i * 2 := pow_succ 2 i
    have e2 : (2 : ℕ) ^ (i + 1 + 1) = 2 ^ (i + 1) * 2 := pow_succ 2 (i + 1)
    unfold nsqrtAux
    split
    · have := ih n (r + 2 ^ i)
      omega
    · have := ih n r
      omega

lemma nsqrt_lt (n : ℕ) : nsqrt n < 2 ^ 1000 := by
  have h1 := nsqrtAux_le 70 n 0
  have h2 : (2 : ℕ) ^ 71 ≤ 2 ^ 1000 := Nat.pow_le_pow_right (by norm_num) (by norm_num)
  unfold nsqrt
  omega

lemma sqrtCore_le (m : ℕ) (e : ℤ) : sqrtCore m e ≤ pinf :=
  roundSticky_false_le (nsqrt_lt _)

lemma sqrtPos_le (m : ℕ) (e : ℤ) : sqrtPos m e ≤ pinf := by
  unfold sqrtPos
  split
  · exact sqrtCore_le _ _
  · exact sqrtCore_le _ _

/-- The square root of a pattern is a sign-0 pattern (at worst the
canonical NaN), or `-0.0` (which IEEE prescribes for `sqrt(-0.0)`). -/
lemma sqrtD_class (x : ℕ) :
    sqrtD x ≤ pnan ∨ sqrtD x = 2 ^ 63 := by
  rcases hdx : decode x with _ | s | s | ⟨s, m, e⟩
  · simp only [sqrtD, hdx]
    exact Or.inl (le_refl _)
  · cases s
    · simp only [sqrtD, hdx, Bool.false_eq_true, if_false]
      exact Or.inl pinf_le_pnan
    · simp only [sqrtD, hdx, if_true]
      exact Or.inl (le_refl _)
  · cases s
    · simp only [sqrtD, hdx]
      exact Or.inl (le_trans (by unfold pzero; norm_num : pzero false ≤ pinf) pinf_le_pnan)
    · simp only [sqrtD, hdx]
      exact Or.inr (by unfold pzero; norm_num)
  · cases s
    · simp only [sqrtD, hdx, Bool.false_eq_true, if_false]
      exact Or.inl (le_trans (sqrtPos_le m e) pinf_le_pnan)
    · simp only [sqrtD, hdx, if_true]
      exact Or.inl (le_refl _)

/-! ## Infrastructure: successor arithmetic and NaN propagation -/

/-- `next` on a small positive pattern is plain increment. -/
lemma next_pos {p : ℕ} (hp : p + 1 < 2 ^ 63) : next p = p + 1 := by
  unfold next next_k
  rw [float_bits_eq (by omega), if_pos (by omega : p < 2 ^ 63)]
  have e1 : (p + 1) % 2 ^ 64 = p + 1 := by omega
  rw [e1, bits_float_eq (by omega), if_pos hp]

lemma isNaNB_pnan : isNaNB pnan = true := by decide

/-- Any NaN pattern on the right absorbs `addD` into the canonical NaN. -/
lemma addD_nan_right {x y : ℕ} (hy : isNaNB y = true) : addD x y = pnan := by
  have hdy := decode_nan_iff.mpr hy
  rcases hdx : decode x with _ | s | s | ⟨s, m, e⟩ <;> simp only [addD, hdx, hdy]

/-- Sign flip preserves being a NaN pattern. -/
lemma isNaNB_negD {x : ℕ} (hx : x < 2 ^ 64) : isNaNB (negD x) = isNaNB x := by
  unfold negD isNaNB
  split
  · have e : (x + 2 ^ 63) % 2 ^ 63 = x % 2 ^ 63 := by omega
    rw [e]
  · have e : (x - 2 ^ 63) % 2 ^ 63 = x % 2 ^ 63 := by omega
    rw [e]

/-- A strict `<` in one direction kills `<=` in the other. -/
lemma dle_false_of_dlt {x y : ℕ} (h : dlt x y = true) : dle y x = false := by
  unfold dle
  rw [h]
  simp

/-- `sqrt_up` always lands on a sign-0 pattern. -/
lemma sqrt_up_lt63 (x : ℕ) : sqrt_up x < 2 ^ 63 := by
  unfold sqrt_up
  rcases sqrtD_class x with h | h
  · rw [next_pos (by unfold pnan at h; omega)]
    unfold pnan at h
    omega
  · rw [h]
    decide

/-- Multiplying any sign-0 pattern by `+inf` and nudging up gives a NaN. -/
lemma mulD_pinf_nan {v : ℕ} (hv : v < 2 ^ 63) :
    isNaNB (next (mulD v pinf)) = true ∧ next (mulD v pinf) < 2 ^ 63 := by
  have hdp : decode pinf = .inf false := by decide
  have hnan : isNaNB (next pnan) = true ∧ next pnan < 2 ^ 63 := by
    rw [next_pos (by unfold pnan; omega)]
    refine ⟨by decide, by unfold pnan; omega⟩
  have hinf : isNaNB (next (pinfS false)) = true ∧ next (pinfS false) < 2 ^ 63 := by
    have e : pinfS false = pinf := by decide
    rw [e, next_pos (by unfold pinf; omega)]
    refine ⟨by decide, by unfold pinf; omega⟩
  rcases decode_cases63 hv with ⟨hdv, _⟩ | ⟨hdv, _⟩ | ⟨hdv, _⟩ | ⟨m, e, hdv, _, _, _, _⟩
  · have he : mulD v pinf = pnan := by simp only [mulD, hdv, hdp]
    rw [he]
    exact hnan
  · have he : mulD v pinf = pnan := by simp only [mulD, hdv, hdp]
    rw [he]
    exact hnan
  · have he : mulD v pinf = pinfS false := by
      simp only [mulD, hdv, hdp, Bool.xor_false]
    rw [he]
    exact hinf
  · have he : mulD v pinf = pinfS false := by
      simp only [mulD, hdv, hdp, Bool.xor_false]
    rw [he]
    exact hinf

/-! ## Infrastructure: the `min_count` clamp and the early returns -/

lemma u64ToD_le_pinf {n : ℕ} (h : n < 2 ^ 64) : u64ToD n ≤ pinf :=
  roundFin_false_le (lt_pow_mono h (by norm_num))

/-- The 53-bit normalized mantissa of a value at its own magnitude is at
least `2^52`. -/
lemma normQ_ge {m : ℕ} (h2 : 2 ^ nlog2 m ≤ m) : 2 ^ 52 ≤ normQ m (nlog2 m) := by
  unfold normQ
  split
  · rename_i hL
    have h3 : 2 ^ nlog2 m * 2 ^ (52 - nlog2 m) ≤ m * 2 ^ (52 - nlog2 m) :=
      Nat.mul_le_mul_right _ h2
    have h4 : (2 : ℕ) ^ nlog2 m * 2 ^ (52 - nlog2 m) = 2 ^ 52 := by
      rw [← pow_add]
      congr 1
      omega
    omega
  · rename_i hL
    have h5 := shiftRNE_ge m (nlog2 m - 52)
    have h6 : 2 ^ 52 ≤ m / 2 ^ (nlog2 m - 52) := by
      rw [Nat.le_div_iff_mul_le (Nat.pos_pow_of_pos _ (by norm_num))]
      have h7 : (2 : ℕ) ^ 52 * 2 ^ (nlog2 m - 52) = 2 ^ nlog2 m := by
        rw [← pow_add]
        congr 1
        omega
      omega
    omega

/-- A `uint64` at least 2 converts to a double at least `2.0`. -/
lemma dtwo_le_u64ToD {n : ℕ} (h2 : 2 ≤ n) (h64 : n < 2 ^ 64) : dtwo ≤ u64ToD n := by
  obtain ⟨hL1, hL2⟩ := nlog2_correct (by omega) (lt_pow_mono h64 (by norm_num))
  have h0 : nlog2 n ≠ 0 := by
    intro h0
    rw [h0] at hL2
    norm_num at hL2
    omega
  have hL64 : nlog2 n < 64 := nlog2_lt_of_lt (by omega) (by norm_num) h64
  have hq52 : 2 ^ 52 ≤ normQ n (nlog2 n) := normQ_ge hL1
  have hq53 : normQ n (nlog2 n) ≤ 2 ^ 53 := normQ_le (by omega) (lt_pow_mono h64 (by norm_num))
  unfold u64ToD roundFin
  rw [if_neg (by omega)]
  rw [if_neg (by push_cast; omega)]
  split
  · rw [if_neg (by push_cast; omega)]
    unfold pack dtwo
    have ht : 1025 ≤ ((((nlog2 n : ℕ) : ℤ) + 0 + 1) + 1023).toNat := by omega
    simp only [Bool.false_eq_true, if_false]
    omega
  · rw [if_neg (by push_cast; omega)]
    unfold pack dtwo
    have ht : 1024 ≤ ((((nlog2 n : ℕ) : ℤ) + 0) + 1023).toNat := by omega
    simp only [Bool.false_eq_true, if_false]
    omega

/-- The C clamp `if (min_count < c) min_count = c;` — a double compare
against `2.0` — equals the mathematical clamp `max min_count 2`. -/
lemma clamp_eq_max {mc : ℕ} (h : mc < 2 ^ 64) :
    (if dlt (u64ToD mc) dtwo then 2 else mc) = max mc 2 := by
  by_cases h2 : 2 ≤ mc
  · have hge := dtwo_le_u64ToD h2 h
    have hle' := u64ToD_le_pinf h
    have hlt63 : u64ToD mc < 2 ^ 63 := by unfold pinf at hle'; omega
    have hnn : isNaNB (u64ToD mc) = false := by
      rw [isNaNB_false_iff]
      unfold pinf at hle'
      omega
    have hd : dlt (u64ToD mc) dtwo = false := by
      cases hd0 : dlt (u64ToD mc) dtwo
      · rfl
      · exfalso
        rw [dlt_eval (by omega) (by decide) hnn (by decide)] at hd0
        rw [eval_pos_pattern hlt63, eval_pos_pattern (by decide)] at hd0
        exact absurd hd0 (not_lt.mpr (fext_mono.monotone hge))
    rw [hd, if_neg (by decide)]
    omega
  · push_neg at h2
    interval_cases mc
    · rw [if_pos (by decide)]
      decide
    · rw [if_pos (by decide)]
      decide

/-- Below the clamped minimum count, the threshold is `+inf`. -/
lemma threshold_eq_pinf (lm : Libm) {n mc : ℕ} (le : ℕ) (hmc : mc < 2 ^ 64)
    (hn : n < max mc 2) : martingale_cs_threshold lm n mc le = pinf := by
  simp only [martingale_cs_threshold]
  rw [clamp_eq_max hmc, if_pos hn]

/-- The threshold depends on `n` only through the count test and the
conversion to double. -/
lemma threshold_congr (lm : Libm) {n1 n2 mc : ℕ} (le : ℕ) (hmc : mc < 2 ^ 64)
    (h1 : max mc 2 ≤ n1) (h2 : max mc 2 ≤ n2) (hu : u64ToD n1 = u64ToD n2) :
    martingale_cs_threshold lm n1 mc le = martingale_cs_threshold lm n2 mc le := by
  simp only [martingale_cs_threshold]
  rw [clamp_eq_max hmc, hu, if_neg (show ¬ n1 < max mc 2 from by omega),
    if_neg (show ¬ n2 < max mc 2 from by omega)]

/-- The threshold depends on `min_count` (above the clamp) only through the
count test and the conversion to double. -/
lemma threshold_congr_mc (lm : Libm) {n mc1 mc2 : ℕ} (le : ℕ)
    (h1 : 2 ≤ mc1) (h2 : 2 ≤ mc2) (h64a : mc1 < 2 ^ 64) (h64b : mc2 < 2 ^ 64)
    (hn1 : mc1 ≤ n) (hn2 : mc2 ≤ n) (hu : u64ToD mc1 = u64ToD mc2) :
    martingale_cs_threshold lm n mc1 le = martingale_cs_threshold lm n mc2 le := by
  simp only [martingale_cs_threshold, log_a_up]
  rw [clamp_eq_max h64a, clamp_eq_max h64b]
  have e1 : max mc1 2 = mc1 := by omega
  have e2 : max mc2 2 = mc2 := by omega
  rw [e1, e2, hu, if_neg (show ¬ n < mc1 from by omega), if_neg (show ¬ n < mc2 from by omega)]

/-- The threshold depends on `log_eps` only through its sign test and the
`log_a_up` subtraction. -/
lemma threshold_congr_le (lm : Libm) {n mc : ℕ} (le1 le2 : ℕ) (hmc : mc < 2 ^ 64)
    (hg1 : dge le1 dzero = false) (hg2 : dge le2 dzero = false)
    (hla : log_a_up lm (max mc 2) le1 = log_a_up lm (max mc 2) le2) :
    martingale_cs_threshold lm n mc le1 = martingale_cs_threshold lm n mc le2 := by
  simp only [martingale_cs_threshold]
  rw [clamp_eq_max hmc, hg1, hg2, hla]

/-! ## Infrastructure: mixed-sign addition and the range NaN core -/

/-- A rounded negative value away from the underflow-to-zero region is a
strictly negative non-NaN pattern. -/
lemma roundFin_true_pos {m : ℕ} {e : ℤ} (hm : m < 2 ^ 6000) (h1 : 1 ≤ m)
    (he : -1074 ≤ e) : 2 ^ 63 + 1 ≤ roundFin true m e ∧ roundFin true m e ≤ 2 ^ 63 + pinf := by
  obtain ⟨b, hb, hpos, heq⟩ := roundFin_body (s := true) (e := e) hm
  simp at heq
  have := hpos h1 he
  omega

/-- Adding a positive and a larger-magnitude negative double yields a
strictly negative non-NaN pattern. -/
lemma addD_mixed_neg {x y : ℕ} (hx1 : 1 ≤ x) (hx2 : x ≤ pinf)
    (hy1 : 2 ^ 63 < y) (hy2 : y ≤ 2 ^ 63 + pinf)
    (hlt : fext x < fext (y - 2 ^ 63)) :
    2 ^ 63 + 1 ≤ addD x y ∧ addD x y ≤ 2 ^ 63 + pinf := by
  have hy64 : y < 2 ^ 64 := by unfold pinf at hy2; omega
  have hymod : y % 2 ^ 63 = y - 2 ^ 63 := by omega
  rcases decode_pos_cases hx1 hx2 with ⟨hdx, hx3⟩ | ⟨m1, e1, hdx, hm1, hm1b, he1, he1b⟩
  · exfalso
    rw [hx3] at hlt
    have h5 : fext (y - 2 ^ 63) ≤ fext pinf := by
      apply fext_mono.monotone
      unfold pinf at hy2 ⊢
      omega
    linarith
  · rcases decode_neg_cases hy64 hy1 (by unfold pinf at hy2 ⊢; omega) with
      ⟨hdy, hy3⟩ | ⟨m2, e2, hdy, hm2, hm2b, he2, he2b⟩
    · have he : addD x y = pinfS true := by simp only [addD, hdx, hdy]
      rw [he]
      unfold pinfS pinf
      norm_num
    · obtain ⟨_, _, _, _, _, hvx, _, _⟩ := decode_fin_facts hdx
      obtain ⟨_, _, _, _, _, hvy, _, _⟩ := decode_fin_facts hdy
      rw [Nat.mod_eq_of_lt (show x < 2 ^ 63 by unfold pinf at hx2; omega)] at hvx
      rw [hymod] at hvy
      rw [hvx, hvy] at hlt
      have hb := finLtB_iff.mpr hlt
      simp only [finLtB, decide_eq_true_eq] at hb
      have hM1 : m1 * 2 ^ (e1 - min e1 e2).toNat < 2 ^ (53 + 2045) := mulpow_lt hm1b (by omega)
      have hM2 : m2 * 2 ^ (e2 - min e1 e2).toNat < 2 ^ (53 + 2045) := mulpow_lt hm2b (by omega)
      have he : addD x y = roundFin true
          (m2 * 2 ^ (e2 - min e1 e2).toNat - m1 * 2 ^ (e1 - min e1 e2).toNat) (min e1 e2) := by
        simp only [addD, hdx, hdy]
        rw [if_neg (by decide : ¬ (false = true)), if_neg (by omega), if_neg (by omega)]
      rw [he]
      have hp2 : (2 : ℕ) ^ (53 + 2045) ≤ 2 ^ 6000 := Nat.pow_le_pow_right (by norm_num) (by norm_num)
      exact roundFin_true_pos (by omega) (by omega) (by omega)

/-- Adding a negative and a larger-magnitude positive double yields a
strictly positive non-NaN pattern. -/
lemma addD_mixed_pos {x y : ℕ} (hx1 : 1 ≤ x) (hx2 : x ≤ pinf)
    (hy1 : 2 ^ 63 < y) (hy2 : y ≤ 2 ^ 63 + pinf)
    (hlt : fext (y - 2 ^ 63) < fext x) :
    1 ≤ addD x y ∧ addD x y ≤ pinf := by
  have hy64 : y < 2 ^ 64 := by unfold pinf at hy2; omega
  have hymod : y % 2 ^ 63 = y - 2 ^ 63 := by omega
  rcases decode_neg_cases hy64 hy1 (by unfold pinf at hy2 ⊢; omega) with
      ⟨hdy, hy3⟩ | ⟨m2, e2, hdy, hm2, hm2b, he2, he2b⟩
  · exfalso
    have h5 : fext x ≤ fext pinf := fext_mono.monotone hx2
    rw [hy3] at hlt
    have e0 : 2 ^ 63 + pinf - 2 ^ 63 = pinf := by omega
    rw [e0] at hlt
    linarith
  · rcases decode_pos_cases hx1 hx2 with ⟨hdx, hx3⟩ | ⟨m1, e1, hdx, hm1, hm1b, he1, he1b⟩
    · have he : addD x y = pinfS false := by simp only [addD, hdx, hdy]
      rw [he]
      unfold pinfS pinf
      norm_num
    · obtain ⟨_, _, _, _, _, hvx, _, _⟩ := decode_fin_facts hdx
      obtain ⟨_, _, _, _, _, hvy, _, _⟩ := decode_fin_facts hdy
      rw [Nat.mod_eq_of_lt (show x < 2 ^ 63 by unfold pinf at hx2; omega)] at hvx
      rw [hymod] at hvy
      rw [hvx, hvy] at hlt
      have hb := finLtB_iff.mpr hlt
      simp only [finLtB, decide_eq_true_eq] at hb
      have hM1 : m1 * 2 ^ (e1 - min e1 e2).toNat < 2 ^ (53 + 2045) := mulpow_lt hm1b (by omega)
      have hM2 : m2 * 2 ^ (e2 - min e1 e2).toNat < 2 ^ (53 + 2045) := mulpow_lt hm2b (by omega)
      have hmin : min e2 e1 = min e1 e2 := by omega
      rw [hmin] at hb
      have he : addD x y = roundFin false
          (m1 * 2 ^ (e1 - min e1 e2).toNat - m2 * 2 ^ (e2 - min e1 e2).toNat) (min e1 e2) := by
        simp only [addD, hdx, hdy]
        rw [if_neg (by decide : ¬ (false = true)), if_neg (by omega), if_pos (by omega)]
      rw [he]
      have hp2 : (2 : ℕ) ^ (53 + 2045) ≤ 2 ^ 6000 := Nat.pow_le_pow_right (by norm_num) (by norm_num)
      exact ⟨roundFin_false_pos (by omega) (by omega) (by omega), roundFin_false_le (by omega)⟩

/-- A strictly negative pattern compares `< 0.0`. -/
lemma dlt_neg_zero {lo : ℕ} (h1 : 2 ^ 63 < lo) (h2 : lo ≤ 2 ^ 63 + pinf) :
    dlt lo dzero = true := by
  have hlo64 : lo < 2 ^ 64 := by unfold pinf at h2; omega
  have hnn : isNaNB lo = false := by
    rw [isNaNB_false_iff]
    unfold pinf at h2
    omega
  rw [dlt_eval hlo64 (by decide) hnn (by decide)]
  rw [eval_neg_pattern (by omega) hlo64]
  unfold dzero
  rw [eval_zero_pat]
  have := fext_pos (show 0 < lo % 2 ^ 63 by unfold pinf at h2; omega)
  linarith

/-- A strictly positive pattern compares `> 0.0`. -/
lemma dlt_zero_pos {hi : ℕ} (h1 : 1 ≤ hi) (h2 : hi ≤ pinf) : dlt dzero hi = true := by
  have h63 : hi < 2 ^ 63 := by unfold pinf at h2; omega
  have hnn : isNaNB hi = false := by
    rw [isNaNB_false_iff]
    rw [Nat.mod_eq_of_lt h63]
    unfold pinf at h2
    omega
  rw [dlt_eval (by decide) (by omega) (by decide) hnn]
  unfold dzero
  rw [eval_zero_pat, eval_pos_pattern h63]
  exact fext_pos (by omega)

lemma next_mul_sqrt_lt63 {X spanv : ℕ} (hs : spanv < 2 ^ 63) :
    next (mulD (sqrt_up X) spanv) < 2 ^ 63 := by
  have hm := mulD_le_pnan (sqrt_up_lt63 X) hs
  rw [next_pos (by unfold pnan at hm; omega)]
  unfold pnan at hm
  omega

/-- Below the clamped minimum count, `martingale_cs_threshold_range` on a
strictly negative `lo` and strictly positive `hi` returns a NaN pattern. -/
lemma range_nan_core (lm : Libm) {n mc : ℕ} (lo hi le : ℕ)
    (hmc : mc < 2 ^ 64) (hn : n < max mc 2)
    (hlo1 : 2 ^ 63 < lo) (hlo2 : lo ≤ 2 ^ 63 + pinf)
    (hhi1 : 1 ≤ hi) (hhi2 : hi ≤ pinf) :
    isNaNB (martingale_cs_threshold_range lm n mc lo hi le) = true ∧
    martingale_cs_threshold_range lm n mc lo hi le < 2 ^ 63 := by
  have hg1 : dge lo dzero = false := by
    unfold dge
    exact dle_false_of_dlt (dlt_neg_zero hlo1 hlo2)
  have hg2 : dle hi dzero = false := dle_false_of_dlt (dlt_zero_pos hhi1 hhi2)
  have hguard : (dge lo dzero || dle hi dzero) = false := by rw [hg1, hg2]; rfl
  have hnegD : negD lo = lo - 2 ^ 63 := by
    unfold negD
    rw [if_neg (by omega)]
  have hsub : 1 ≤ subD hi lo ∧ subD hi lo ≤ pinf := by
    unfold subD
    refine addD_strictPos hhi1 hhi2 ?_ ?_
    · rw [hnegD]
      omega
    · rw [hnegD]
      unfold pinf at hlo2 ⊢
      omega
  have hsub63 : subD hi lo + 1 < 2 ^ 63 := by unfold pinf at hsub; omega
  have hspan63 : next (subD hi lo) < 2 ^ 63 := by rw [next_pos hsub63]; omega
  simp only [martingale_cs_threshold_range]
  rw [hguard]
  rw [if_neg (by decide : ¬ (false = true))]
  rw [threshold_eq_pinf lm le hmc hn]
  apply mulD_pinf_nan
  split
  · exact lt_of_le_of_lt (divD_le_pnan hspan63 (by decide)) (by unfold pnan; omega)
  · exact next_mul_sqrt_lt63 hspan63

/-! ## The claims -/

set_option maxRecDepth 100000

/-- C1: for `log_eps < 0` (as doubles) and `n >= max(min_count, 2)`,
`martingale_cs_threshold` returns exactly the claimed nudged closed form
`next(3 * sqrt_up(next(n * inner)))` with
`inner = next(next(0.5*log_up(log_up n) + minus_half_log_log_2_up) +
0.25*(log_up(next(1/prev(log2_down(mc')-0.5))) - log_eps))`,
where `mc' = max(min_count, 2)`. -/
theorem C1_threshold_formula (lm : Libm) (n mc le : ℕ) (hmc : mc < 2 ^ 64)
    (hn : max mc 2 ≤ n) (hle : dlt le dzero = true) :
    martingale_cs_threshold lm n mc le = threshold_formula_spec lm n (max mc 2) le := by
  have hge : dge le dzero = false := by
    unfold dge
    exact dle_false_of_dlt hle
  simp only [martingale_cs_threshold, threshold_formula_spec, log_a_up]
  rw [clamp_eq_max hmc, if_neg (by omega), hge]
  rw [if_neg (by decide : ¬ (false = true))]

/-- Witness for C1 at `n = 1000`, `min_count = 2`, `log_eps = -1.0`. -/
theorem C1_threshold_formula_witness :
    max 2 2 ≤ 1000 ∧ dlt (negD done) dzero = true ∧
    martingale_cs_threshold defaultLibm 1000 2 (negD done) =
      threshold_formula_spec defaultLibm 1000 (max 2 2) (negD done) :=
  ⟨by decide, by decide,
    C1_threshold_formula defaultLibm 1000 2 (negD done) (by decide) (by decide) (by decide)⟩

/-- C2 counterexample: all four claimed strict monotonicities fail.
(i) At `n = 2^60` (with `min_count = 2`, `log_eps = -1.0`) the thresholds
at `n` and `n + 1` are bit-for-bit equal, because both counts convert to
the same double — so the threshold is not strictly increasing in `n`.
(ii) The per-count width `threshold(n)/n` (double division, `n` converted)
is likewise equal at those two counts, so it is not strictly decreasing.
(iii) At `min_count = 2^60` vs `2^60 + 1` (with `n = 2^61 >= both >= 2`)
the thresholds are equal for the same reason, so the threshold is not
strictly decreasing in `min_count`.
(iv) At `log_eps = -2^-1073 < -2^-1074 < 0` the subtraction
`log_a - log_eps` rounds to the same double, so the thresholds at
`n = 1000`, `min_count = 2` are equal and the threshold is not strictly
increasing as `log_eps` decreases. -/
theorem C2_counterexample :
    dlt (negD done) dzero = true ∧ 2 ≤ 2 ^ 60 ∧
    martingale_cs_threshold defaultLibm (2 ^ 60 + 1) 2 (negD done) =
      martingale_cs_threshold defaultLibm (2 ^ 60) 2 (negD done) ∧
    divD (martingale_cs_threshold defaultLibm (2 ^ 60 + 1) 2 (negD done))
        (u64ToD (2 ^ 60 + 1)) =
      divD (martingale_cs_threshold defaultLibm (2 ^ 60) 2 (negD done))
        (u64ToD (2 ^ 60)) ∧
    2 ≤ 2 ^ 60 ∧ 2 ^ 60 + 1 ≤ 2 ^ 61 ∧
    martingale_cs_threshold defaultLibm (2 ^ 61) (2 ^ 60 + 1) (negD done) =
      martingale_cs_threshold defaultLibm (2 ^ 61) (2 ^ 60) (negD done) ∧
    dlt (negD 2) (negD 1) = true ∧ dlt (negD 1) dzero = true ∧
    martingale_cs_threshold defaultLibm 1000 2 (negD 2) =
      martingale_cs_threshold defaultLibm 1000 2 (negD 1) := by
  have hu : u64ToD (2 ^ 60 + 1) = u64ToD (2 ^ 60) := by decide
  have hn := threshold_congr defaultLibm (negD done)
    (show (2 : ℕ) < 2 ^ 64 from by decide) (by decide) (by decide) hu
  refine ⟨by decide, by decide, hn, ?_, by decide, by decide, ?_, by decide, by decide, ?_⟩
  · rw [hn, hu]
  · exact threshold_congr_mc defaultLibm (negD done) (by decide) (by decide) (by decide)
      (by decide) (by decide) (by decide) hu
  · exact threshold_congr_le defaultLibm (negD 2) (negD 1) (by decide) (by decide)
      (by decide) (by decide)

/-- C2 amended: the threshold factors through the floating-point reductions
of each argument, which is exactly why none of the claimed strict
monotonicities can hold. (i) It depends on `n` only through the count test
and `u64ToD n`: counts at or above the clamped minimum that convert to the
same double give bit-for-bit equal thresholds (above `2^53` distinct counts
collapse). (ii) It depends on `min_count` (at or above 2) only through the
count test and `u64ToD min_count`. (iii) It depends on `log_eps` only
through its sign test and the rounded subtraction inside `log_a_up`: when
two negative `log_eps` values produce the same `log_a`, the thresholds are
equal (distinct values closer than the subtraction's rounding step
collapse). -/
theorem C2_amended (lm : Libm) :
    (∀ n1 n2 mc le, mc < 2 ^ 64 → max mc 2 ≤ n1 → max mc 2 ≤ n2 →
      u64ToD n1 = u64ToD n2 →
      martingale_cs_threshold lm n1 mc le = martingale_cs_threshold lm n2 mc le) ∧
    (∀ n mc1 mc2 le, 2 ≤ mc1 → 2 ≤ mc2 → mc1 < 2 ^ 64 → mc2 < 2 ^ 64 →
      mc1 ≤ n → mc2 ≤ n → u64ToD mc1 = u64ToD mc2 →
      martingale_cs_threshold lm n mc1 le = martingale_cs_threshold lm n mc2 le) ∧
    (∀ n mc le1 le2, mc < 2 ^ 64 → dge le1 dzero = false → dge le2 dzero = false →
      log_a_up lm (max mc 2) le1 = log_a_up lm (max mc 2) le2 →
      martingale_cs_threshold lm n mc le1 = martingale_cs_threshold lm n mc le2) :=
  ⟨fun _ _ _ le hmc h1 h2 hu => threshold_congr lm le hmc h1 h2 hu,
   fun _ _ _ le h1 h2 h64a h64b hn1 hn2 hu =>
     threshold_congr_mc lm le h1 h2 h64a h64b hn1 hn2 hu,
   fun _ _ le1 le2 hmc hg1 hg2 hla => threshold_congr_le lm le1 le2 hmc hg1 hg2 hla⟩

/-- Witness for the amended C2: the `n` fiber at `2^60` and `2^60 + 1`, the
`min_count` fiber at the same pair, and the `log_eps` fiber at `-2^-1074`
and `-2^-1073`. -/
theorem C2_amended_witness :
    u64ToD (2 ^ 60) = u64ToD (2 ^ 60 + 1) ∧
    martingale_cs_threshold defaultLibm (2 ^ 60) 2 done =
      martingale_cs_threshold defaultLibm (2 ^ 60 + 1) 2 done ∧
    martingale_cs_threshold defaultLibm (2 ^ 61) (2 ^ 60) done =
      martingale_cs_threshold defaultLibm (2 ^ 61) (2 ^ 60 + 1) done ∧
    martingale_cs_threshold defaultLibm 3 2 (negD 1) =
      martingale_cs_threshold defaultLibm 3 2 (negD 2) := by
  have T := C2_amended defaultLibm
  exact ⟨by decide,
    T.1 (2 ^ 60) (2 ^ 60 + 1) 2 done (by decide) (by decide) (by decide) (by decide),
    T.2.1 (2 ^ 61) (2 ^ 60) (2 ^ 60 + 1) done (by decide) (by decide) (by decide)
      (by decide) (by decide) (by decide) (by decide),
    T.2.2 3 2 (negD 1) (negD 2) (by decide) (by decide) (by decide) (by decide)⟩

/-- C3 counterexample: even at `quantile = 0.5` the claimed identity
`quantile_slop(0.5, n, m, e) = 1 + 0.5 * threshold(n, m, e + eq)` fails
exactly: the code inserts an extra upward nudge, `1 + next(0.5 * T)`,
which differs in the last place at `n = 1000`, `min_count = 2`,
`log_eps = -1.0` with a correctly rounded libm. -/
theorem C3_counterexample :
    dlt dzero dhalf = true ∧ dlt dhalf done = true ∧ dle (negD done) dzero = true ∧
    martingale_cs_quantile_slop defaultLibm dhalf 1000 2 (negD done) ≠
      addD done (mulD dhalf (martingale_cs_threshold defaultLibm 1000 2
        (addD (negD done) martingale_cs_eq))) := by
  refine ⟨by decide, by decide, by decide, ?_⟩
  decide

/-- C3 amended: for every quantile strictly between 0 and 1 the slop is
`1 + next(0.5 * threshold(n, min_count, log_eps + eq))` — the extra
`next` and the constant factor `0.5` (never `max(q, 1-q)`) are the exact
semantics. -/
theorem C3_amended (lm : Libm) (q n mc le : ℕ)
    (h1 : dlt dzero q = true) (h2 : dlt q done = true) :
    martingale_cs_quantile_slop lm q n mc le =
      addD done (next (mulD dhalf (martingale_cs_threshold lm n mc
        (addD le martingale_cs_eq)))) := by
  have hg1 : dle q dzero = false := dle_false_of_dlt h1
  have hg2 : dge q done = false := by
    unfold dge
    exact dle_false_of_dlt h2
  simp only [martingale_cs_quantile_slop, martingale_cs_threshold_span]
  rw [hg1, hg2, if_neg (by decide : ¬ ((false || false) = true))]
  rw [show divD done dtwo = dhalf from by decide]

/-- Witness for the amended C3 at `q = 0.5`, `n = 1000`. -/
theorem C3_amended_witness :
    dlt dzero dhalf = true ∧ dlt dhalf done = true ∧
    martingale_cs_quantile_slop defaultLibm dhalf 1000 2 dzero =
      addD done (next (mulD dhalf (martingale_cs_threshold defaultLibm 1000 2
        (addD dzero martingale_cs_eq)))) :=
  ⟨by decide, by decide, C3_amended defaultLibm dhalf 1000 2 dzero (by decide) (by decide)⟩

/-- C4 counterexample: `threshold_range(n, m, -1, 1, e)` does NOT equal
`threshold_span(n, m, 2, e)`: the range path computes its span as
`next(1 - (-1)) = next(2)` whose half is `1 + 2^-52`, while the span path
divides `2/2 = 1` exactly; at `n = 1000`, `min_count = 2`,
`log_eps = -1.0` the results differ. -/
theorem C4_counterexample :
    dle (negD done) dzero = true ∧
    martingale_cs_threshold_range defaultLibm 1000 2 (negD done) done (negD done) ≠
      martingale_cs_threshold_span defaultLibm 1000 2 dtwo (negD done) := by
  refine ⟨by decide, ?_⟩
  decide

/-- C4 amended: for all arguments the symmetric range call scales the
threshold by `next(2)/2 = 1 + 2^-52` (pattern `0x3FF0000000000001`) while
the span call scales by `2/2 = 1.0` exactly, each followed by one upward
nudge; the two sides differ exactly by that scale factor. -/
theorem C4_amended (lm : Libm) (n mc le : ℕ) :
    martingale_cs_threshold_range lm n mc (negD done) done le =
      next (mulD 0x3FF0000000000001 (martingale_cs_threshold lm n mc le)) ∧
    martingale_cs_threshold_span lm n mc dtwo le =
      next (mulD done (martingale_cs_threshold lm n mc le)) := by
  constructor
  · simp only [martingale_cs_threshold_range]
    rw [show (dge (negD done) dzero || dle done dzero) = false from by decide]
    rw [if_neg (by decide : ¬ (false = true))]
    rw [show dle (prev (divD (negD (negD done)) (next (subD done (negD done))))) dhalf = true
      from by decide]
    rw [if_pos rfl]
    rw [show divD (next (subD done (negD done))) dtwo = 0x3FF0000000000001 from by decide]
  · simp only [martingale_cs_threshold_span]
    rw [show divD dtwo dtwo = done from by decide]

/-- C5: the early returns — below the clamped minimum count the threshold
is `+inf` (taking precedence over everything else), and otherwise a
non-negative `log_eps` yields `-inf`. -/
theorem C5_early_returns (lm : Libm) (n mc le : ℕ) (hmc : mc < 2 ^ 64)
    (hle : dle le dzero = true) :
    (n < max mc 2 → martingale_cs_threshold lm n mc le = pinf) ∧
    (max mc 2 ≤ n → dge le dzero = true → martingale_cs_threshold lm n mc le = negD pinf) := by
  constructor
  · intro hn
    exact threshold_eq_pinf lm le hmc hn
  · intro hn hge
    simp only [martingale_cs_threshold]
    rw [clamp_eq_max hmc, if_neg (by omega), hge, if_pos rfl]

/-- Witness for C5: `threshold(1, 10, -1) = +inf` and
`threshold(5, 2, 0) = -inf`. -/
theorem C5_early_returns_witness :
    martingale_cs_threshold defaultLibm 1 10 (negD done) = pinf ∧
    martingale_cs_threshold defaultLibm 5 2 dzero = negD pinf := by
  constructor
  · exact (C5_early_returns defaultLibm 1 10 (negD done) (by decide) (by decide)).1 (by decide)
  · exact (C5_early_returns defaultLibm 5 2 dzero (by decide) (by decide)).2 (by decide) (by decide)

/-- C6: any `min_count <= 2` is clamped up to 2 before all other
processing, giving bit-for-bit the same threshold as `min_count = 2`. -/
theorem C6_min_count_clamp (lm : Libm) (n mc le : ℕ) (hmc : mc ≤ 2) :
    martingale_cs_threshold lm n mc le = martingale_cs_threshold lm n 2 le := by
  have h1 : (if dlt (u64ToD mc) dtwo then 2 else mc) = 2 := by
    rw [clamp_eq_max (by omega)]
    omega
  have h2 : (if dlt (u64ToD 2) dtwo then 2 else 2) = 2 := by
    rw [clamp_eq_max (by omega)]
    omega
  simp only [martingale_cs_threshold]
  rw [h1, h2]

/-- Witness for C6 at `min_count = 1`, `n = 7`. -/
theorem C6_min_count_clamp_witness :
    (1 : ℕ) ≤ 2 ∧ martingale_cs_threshold defaultLibm 7 1 (negD done) =
      martingale_cs_threshold defaultLibm 7 2 (negD done) :=
  ⟨by decide, C6_min_count_clamp defaultLibm 7 1 (negD done) (by decide)⟩

/-- C7: a degenerate range (`lo >= 0` or `hi <= 0` as doubles) returns
exactly `0.0`, before any other computation (in particular even when
`n < min_count`). -/
theorem C7_degenerate_range (lm : Libm) (n mc lo hi le : ℕ)
    (h : dge lo dzero = true ∨ dle hi dzero = true) :
    martingale_cs_threshold_range lm n mc lo hi le = dzero := by
  simp only [martingale_cs_threshold_range]
  rw [if_pos ((Bool.or_eq_true _ _).mpr h)]

/-- Witness for C7 at `lo = 1.0 >= 0` with `n = 1 < min_count = 5`. -/
theorem C7_degenerate_range_witness :
    dge done dzero = true ∧
    martingale_cs_threshold_range defaultLibm 1 5 done dtwo (negD done) = dzero :=
  ⟨by decide, C7_degenerate_range defaultLibm 1 5 done dtwo (negD done) (Or.inl (by decide))⟩

/-- C8 counterexample: the key order is NOT the unsigned integer order
claimed: `-1.0 < 1.0` as doubles, yet
`float_bits(-1.0) = 0xC00FFFFFFFFFFFFF` exceeds
`float_bits(1.0) = 0x3FF0000000000000` as unsigned 64-bit integers. -/
theorem C8_counterexample :
    dlt (negD done) done = true ∧ ¬ float_bits (negD done) < float_bits done :=
  ⟨by decide, by decide⟩

/-- C8 amended: the key is order-preserving for the SIGNED 64-bit
interpretation — shifting by `2^63` (the `jdx` index): the round trip is
exact, a float `<` implies a strictly smaller index, a smaller index
implies float `<=` (only `-0.0` vs `+0.0` collapses), and away from NaNs
and `-0.0` (resp. `0.0`), `next` (resp. `prev`) moves to the immediately
adjacent value in the float order. -/
theorem C8_amended (x y : ℕ) (hx : x < 2 ^ 64) (hy : y < 2 ^ 64) :
    bits_float (float_bits x) = x ∧
    (dlt x y = true → jdx x < jdx y) ∧
    (jdx x < jdx y → isNaNB x = false → isNaNB y = false → dle x y = true) ∧
    (isNaNB x = false → isNaNB (next x) = false → x ≠ 2 ^ 63 →
      dlt x (next x) = true ∧ ∀ z, z < 2 ^ 64 → dlt x z = true → dle (next x) z = true) ∧
    (isNaNB x = false → isNaNB (prev x) = false → x ≠ 0 →
      dlt (prev x) x = true ∧ ∀ z, z < 2 ^ 64 → dlt z x = true → dle z (prev x) = true) := by
  refine ⟨bits_float_float_bits hx, ?_, ?_, ?_, ?_⟩
  · intro h
    obtain ⟨hnx, hny⟩ := dlt_not_nan h
    rw [dlt_eval hx hy hnx hny] at h
    exact jdx_lt_of_eval_lt hx hy h
  · intro h hnx hny
    rw [dle_eval hx hy hnx hny]
    exact eval_le_of_jdx_le hx hy (le_of_lt h)
  · intro hnx hnn hne
    have hxne1 : x ≠ 2 ^ 63 - 1 := by
      intro h0
      rw [isNaNB_false_iff, h0] at hnx
      omega
    have hnext64 := next_lt_64 hx
    have hjne : jdx x ≠ 2 ^ 63 - 1 := by
      unfold jdx
      rw [float_bits_eq hx]
      intro hc
      split at hc <;> omega
    have hjn := jdx_next hx hxne1
    constructor
    · rw [dlt_eval hx hnext64 hnx hnn, eval_H hx, eval_H hnext64, hjn]
      exact H_lt_succ hjne
    · intro z hz hlt
      obtain ⟨_, hnz⟩ := dlt_not_nan hlt
      rw [dlt_eval hx hz hnx hnz] at hlt
      have hj := jdx_lt_of_eval_lt hx hz hlt
      rw [dle_eval hnext64 hz hnn hnz]
      apply eval_le_of_jdx_le hnext64 hz
      rw [hjn]
      omega
  · intro hnx hnp hne0
    have hprev64 := prev_lt_64 hx
    have hxlast : x ≠ 2 ^ 64 - 1 := by
      intro h0
      rw [isNaNB_false_iff, h0] at hnx
      omega
    have hjp := jdx_prev hx hne0 hxlast
    have hjne : jdx (prev x) ≠ 2 ^ 63 - 1 := by
      intro hc
      rw [hc] at hjp
      unfold jdx at hjp
      rw [float_bits_eq hx] at hjp
      split at hjp <;> omega
    constructor
    · rw [dlt_eval hprev64 hx hnp hnx, eval_H hprev64, eval_H hx, hjp]
      exact H_lt_succ hjne
    · intro z hz hlt
      obtain ⟨hnz, _⟩ := dlt_not_nan hlt
      rw [dlt_eval hz hx hnz hnx] at hlt
      have hj := jdx_lt_of_eval_lt hz hx hlt
      rw [dle_eval hz hprev64 hnz hnp]
      apply eval_le_of_jdx_le hz hprev64
      omega

/-- Witness for the amended C8 at `x = 1.0`, `y = 2.0`. -/
theorem C8_amended_witness :
    bits_float (float_bits done) = done ∧ jdx done < jdx dtwo ∧
    dlt done (next done) = true ∧ dlt (prev done) done = true := by
  have T := C8_amended done dtwo (by decide) (by decide)
  exact ⟨T.1, T.2.1 (by decide), (T.2.2.2.1 (by decide) (by decide) (by decide)).1,
    (T.2.2.2.2 (by decide) (by decide) (by decide)).1⟩

/-- C9: when `n` is below the clamped minimum count (so the base threshold
is `+inf`), every derived function hands back a NaN pattern: the span
variant for any positive finite span, the range variant for any
`lo < 0 < hi`, and all three quantile slops for `0 < quantile < 1` — the
final `next(scale * inf)` nudge maps the infinity onto NaN. -/
theorem C9_infinity_to_nan (lm : Libm) (n mc le : ℕ) (hmc : mc < 2 ^ 64)
    (hn : n < max mc 2) (hle : dle le dzero = true) :
    (∀ span, span < 2 ^ 64 → dlt dzero span = true → span ≠ pinf →
      isNaNB (martingale_cs_threshold_span lm n mc span le) = true) ∧
    (∀ lo hi, lo < 2 ^ 64 → hi < 2 ^ 64 → dlt lo dzero = true → dlt dzero hi = true →
      isNaNB (martingale_cs_threshold_range lm n mc lo hi le) = true) ∧
    (∀ q, q < 2 ^ 64 → dlt dzero q = true → dlt q done = true →
      isNaNB (martingale_cs_quantile_slop lm q n mc le) = true ∧
      isNaNB (martingale_cs_quantile_slop_hi lm q n mc le) = true ∧
      isNaNB (martingale_cs_quantile_slop_lo lm q n mc le) = true) := by
  refine ⟨?_, ?_, ?_⟩
  · intro span hs64 hpos hfin
    obtain ⟨hs1, hs2⟩ := dlt_pos_right hs64 hpos
    simp only [martingale_cs_threshold_span]
    rw [threshold_eq_pinf lm le hmc hn]
    exact (mulD_pinf_nan (lt_of_le_of_lt
      (divD_le_pnan (by unfold pinf at hs2; omega) (by decide)) (by unfold pnan; omega))).1
  · intro lo hi hlo64 hhi64 hlo hhi
    obtain ⟨hl1, hl2⟩ := dlt_neg_left hlo64 hlo
    obtain ⟨hh1, hh2⟩ := dlt_pos_right hhi64 hhi
    exact (range_nan_core lm lo hi le hmc hn hl1 (by omega) hh1 hh2).1
  · intro q hq64 hq0 hq1
    obtain ⟨hqa, hqb⟩ := dlt_pos_right hq64 hq0
    have hq63 : q < 2 ^ 63 := by unfold pinf at hqb; omega
    have hqlt : q < done := by
      have hnq : isNaNB q = false := (dlt_not_nan hq1).1
      rw [dlt_eval hq64 (by decide) hnq (by decide)] at hq1
      rw [eval_pos_pattern hq63, eval_pos_pattern (by decide)] at hq1
      by_contra hc
      push_neg at hc
      exact absurd hq1 (not_lt.mpr (fext_mono.monotone hc))
    have hg1 : dle q dzero = false := dle_false_of_dlt hq0
    have hg2 : dge q done = false := by
      unfold dge
      have hq1' : dlt q done = true := by
        have hnq : isNaNB q = false := (dlt_not_nan hq0).2
        rw [dlt_eval hq64 (by decide) hnq (by decide)]
        rw [eval_pos_pattern hq63, eval_pos_pattern (by decide)]
        exact fext_mono hqlt
      exact dle_false_of_dlt hq1'
    refine ⟨?_, ?_, ?_⟩
    · simp only [martingale_cs_quantile_slop, martingale_cs_threshold_span]
      rw [hg1, hg2, if_neg (by decide : ¬ ((false || false) = true))]
      rw [threshold_eq_pinf lm (addD le martingale_cs_eq) hmc hn]
      rw [show divD done dtwo = dhalf from by decide]
      rw [addD_nan_right (show isNaNB (next (mulD dhalf pinf)) = true from by decide)]
      exact isNaNB_pnan
    · simp only [martingale_cs_quantile_slop_hi]
      rw [hg1, if_neg (by decide : ¬ (false = true))]
      rw [hg2, if_neg (by decide : ¬ (false = true))]
      have hnd : negD done = done + 2 ^ 63 := by
        unfold negD
        rw [if_pos (by decide)]
      have hlo' : 2 ^ 63 + 1 ≤ subD q done ∧ subD q done ≤ 2 ^ 63 + pinf := by
        unfold subD
        rw [hnd]
        refine addD_mixed_neg hqa hqb (by decide) (by decide) ?_
        have e0 : done + 2 ^ 63 - 2 ^ 63 = done := by omega
        rw [e0]
        exact fext_mono hqlt
      have hrange := range_nan_core lm (subD q done) q (addD le martingale_cs_eq) hmc hn
        (by omega) hlo'.2 hqa hqb
      rw [addD_nan_right hrange.1]
      exact isNaNB_pnan
    · simp only [martingale_cs_quantile_slop_lo]
      rw [hg1, if_neg (by decide : ¬ (false = true))]
      rw [hg2, if_neg (by decide : ¬ (false = true))]
      have hnq : negD q = q + 2 ^ 63 := by
        unfold negD
        rw [if_pos hq63]
      have hhi' : 1 ≤ addD done (negD q) ∧ addD done (negD q) ≤ pinf := by
        rw [hnq]
        refine addD_mixed_pos (by decide : 1 ≤ done) (by decide : done ≤ pinf)
          (by omega) (by unfold pinf at hqb ⊢; omega) ?_
        have e0 : q + 2 ^ 63 - 2 ^ 63 = q := by omega
        rw [e0]
        exact fext_mono hqlt
      have hrange := range_nan_core lm (negD q) (addD done (negD q)) (addD le martingale_cs_eq)
        hmc hn (by rw [hnq]; omega) (by rw [hnq]; unfold pinf at hqb ⊢; omega)
        hhi'.1 hhi'.2
      have hlt64 : martingale_cs_threshold_range lm n mc (negD q) (addD done (negD q))
          (addD le martingale_cs_eq) < 2 ^ 64 := by
        have := hrange.2
        omega
      simp only [subD]
      rw [addD_nan_right (by rw [isNaNB_negD hlt64]; exact hrange.1)]
      exact isNaNB_pnan

/-- Witness for C9 at `n = 1 < min_count = 2`, `log_eps = -1.0`,
`span = 1.0`, `lo = -1.0`, `hi = 1.0`, `quantile = 0.5`. -/
theorem C9_infinity_to_nan_witness :
    isNaNB (martingale_cs_threshold_span defaultLibm 1 2 done (negD done)) = true ∧
    isNaNB (martingale_cs_threshold_range defaultLibm 1 2 (negD done) done (negD done)) = true ∧
    isNaNB (martingale_cs_quantile_slop defaultLibm dhalf 1 2 (negD done)) = true := by
  have T := C9_infinity_to_nan defaultLibm 1 2 (negD done) (by decide) (by decide) (by decide)
  exact ⟨T.1 done (by decide) (by decide) (by decide),
    T.2.1 (negD done) done (by decide) (by decide) (by decide) (by decide),
    (T.2.2 dhalf (by decide) (by decide) (by decide)).1⟩

/-- C10: the quantile slop is the same for every non-degenerate quantile —
the argument only feeds the `quantile <= 0 or quantile >= 1` check, so
any two quantiles strictly inside `(0, 1)` give identical results. -/
theorem C10_quantile_noninterference (lm : Libm) (n mc le q1 q2 : ℕ)
    (h1 : dlt dzero q1 = true) (h2 : dlt q1 done = true)
    (h3 : dlt dzero q2 = true) (h4 : dlt q2 done = true) :
    martingale_cs_quantile_slop lm q1 n mc le = martingale_cs_quantile_slop lm q2 n mc le := by
  have g1 : dle q1 dzero = false := dle_false_of_dlt h1
  have g2 : dge q1 done = false := by
    unfold dge
    exact dle_false_of_dlt h2
  have g3 : dle q2 dzero = false := dle_false_of_dlt h3
  have g4 : dge q2 done = false := by
    unfold dge
    exact dle_false_of_dlt h4
  simp only [martingale_cs_quantile_slop]
  rw [g1, g2, g3, g4]

/-- Witness for C10 at `q1 = 0.5`, `q2 = 0.25`. -/
theorem C10_quantile_noninterference_witness :
    martingale_cs_quantile_slop defaultLibm dhalf 3 2 (negD done) =
      martingale_cs_quantile_slop defaultLibm dquarter 3 2 (negD done) :=
  C10_quantile_noninterference defaultLibm 3 2 (negD done) dhalf dquarter
    (by decide) (by decide) (by decide) (by decide)

end MartingaleCS

